import Mathlib

/-!
Verification of the roomodes validator (`validate-roomodes.js`).

The JavaScript source is shallowly embedded: JSON values become the
inductive `JValue`, each validation function becomes a Lean function with
the same name and branch structure, and runtime `TypeError` exceptions are
modelled with `Except String`.  The JavaScript `RegExp` compilation check
(`new RegExp(p)` throwing or not) is the one piece of engine behaviour not
reimplemented here; it is passed in as an explicit `compiles` oracle
parameter, following the source's own design note of passing ambient
tables into the validator explicitly.
-/

namespace Roomodes

/-- JSON values as produced by `JSON.parse`.  Numbers are modelled as
integers (no claim involves fractional numbers); `undefined` never occurs
inside a parsed document, so absent object properties are modelled with
`Option` at the access sites instead. -/
inductive JValue where
  | null
  | bool (b : Bool)
  | num (n : Int)
  | str (s : String)
  | arr (elems : List JValue)
  | obj (fields : List (String × JValue))

/-- JavaScript truthiness of a value (`null`, `false`, `0`, `""` are falsy;
arrays and objects are always truthy). -/
def truthy : JValue → Bool
  | .null => false
  | .bool b => b
  | .num n => n != 0
  | .str s => s != ""
  | .arr _ => true
  | .obj _ => true

/-- Truthiness of a property access result; a missing property is
`undefined`, which is falsy. -/
def truthyO : Option JValue → Bool
  | none => false
  | some v => truthy v

/-- Property lookup `v.k`.  On non-objects every named property read in the
source yields `undefined` (`none`); the `TypeError` thrown by reading a
property of `null` is handled at the call sites. -/
def JValue.getProp : JValue → String → Option JValue
  | .obj fs, k => (fs.find? (fun p => p.1 == k)).map (·.2)
  | _, _ => none

/-- Property assignment `v.k = x` as observed through
`JSON.parse(JSON.stringify(v))`: on an object the field is updated in place
or appended; on any other value the assignment leaves no trace in the
serialized output. -/
def setProp : JValue → String → JValue → JValue
  | .obj fs, k, v =>
      if fs.any (fun p => p.1 == k) then
        .obj (fs.map (fun p => if p.1 == k then (k, v) else p))
      else
        .obj (fs ++ [(k, v)])
  | o, _, _ => o

mutual

/-- JavaScript `String(v)` coercion, as used by `String(mode.roleDefinition)`
and by the implicit coercions of `new RegExp(v)`, `.test(v)` and template
interpolation.  Arrays render as their comma-joined elements with `null`
rendering empty; plain objects render as `[object Object]`. -/
def jsToString : JValue → String
  | .null => "null"
  | .bool b => if b then "true" else "false"
  | .num n => toString n
  | .str s => s
  | .arr xs => jsArrToString xs
  | .obj _ => "[object Object]"

/-- `Array.prototype.toString`: elements joined with `,`, `null` rendered
as the empty string. -/
def jsArrToString : List JValue → String
  | [] => ""
  | x :: xs =>
      (match x with
       | .null => ""
       | v => jsToString v) ++ (if xs.isEmpty then "" else "," ++ jsArrToString xs)

end

/-- `needle` is a prefix of `hay` (character lists). -/
def listLeads : List Char → List Char → Bool
  | [], _ => true
  | _ :: _, [] => false
  | a :: as, b :: bs => a == b && listLeads as bs

/-- Model of JavaScript `hay.startsWith(pre)`. -/
def strStartsWith (hay pre : String) : Bool :=
  listLeads pre.data hay.data

/-- Model of JavaScript `hay.includes(needle)`. -/
def strIncludes (hay needle : String) : Bool :=
  (List.range (hay.data.length + 1)).any (fun i => listLeads needle.data (hay.data.drop i))

/-- The enumerated tool-group set (`VALID_TOOL_GROUPS`). -/
def VALID_TOOL_GROUPS : List String := ["read", "edit", "browser", "command", "mcp"]

/-- `VALID_TOOL_GROUPS.includes(v)` for an arbitrary value: `includes`
compares with `===`, so only equal strings can match. -/
def isValidToolGroup : JValue → Bool
  | .str s => VALID_TOOL_GROUPS.contains s
  | _ => false

/-- A character allowed by the slug regex `/^[a-z0-9-]+$/`. -/
def slugChar (c : Char) : Bool :=
  (Char.ofNat 97 ≤ c && c ≤ Char.ofNat 122) || (Char.ofNat 48 ≤ c && c ≤ Char.ofNat 57) || c == '-'

/-- `mode.slug.match(/^[a-z0-9-]+$/)` succeeds: nonempty and all characters
from `[a-z0-9-]`. -/
def slugFormatOk (s : String) : Bool :=
  s != "" && s.data.all slugChar

/-- The dash-run collapse (regex: one or more dashes, global): runs of `-` become a single `-`. -/
def collapseDashes : List Char → List Char
  | [] => []
  | c :: rest =>
      if c == '-' then
        match rest with
        | d :: _ => if d == '-' then collapseDashes rest else '-' :: collapseDashes rest
        | [] => ['-']
      else c :: collapseDashes rest

/-- `.replace(/^-|-$/g, '')`: with the `g` flag this regex removes one
leading dash and one trailing dash of the original string. -/
def trimDashes (l : List Char) : List Char :=
  let l1 := match l with
            | '-' :: rest => rest
            | other => other
  match l1.reverse with
  | '-' :: rest => rest.reverse
  | _ => l1

/-- The slug-format auto-fix: lowercase, replace disallowed characters with
`-`, collapse dash runs, trim edge dashes (ASCII lowering; no claim
involves non-ASCII case mapping). -/
def sanitizeSlug (s : String) : String :=
  let lowered := s.data.map Char.toLower
  let replaced := lowered.map (fun c => if slugChar c then c else '-')
  ⟨trimDashes (collapseDashes replaced)⟩

/-- Characters that the regex metacharacter `.` does not match, which
matters for the escape-pair regex and the dash-capture regex. -/
def jsDotExcluded (c : Char) : Bool :=
  c == Char.ofNat 10 || c == Char.ofNat 13 || c == Char.ofNat 8232 || c == Char.ofNat 8233

/-- The name auto-fix transform `slice(1).replace(dash-then-any-char regex, x => x[1].toUpperCase())`:
each dash followed by a character is replaced by that character uppercased. -/
def camelizeTail : List Char → List Char
  | [] => []
  | '-' :: rest =>
      match rest with
      | c :: rest2 =>
          if jsDotExcluded c then '-' :: camelizeTail (c :: rest2)
          else Char.toUpper c :: camelizeTail rest2
      | [] => ['-']
  | c :: rest => c :: camelizeTail rest

/-- The placeholder display name derived from a slug:
`slug.charAt(0).toUpperCase() + slug.slice(1).replace(dashCapture, ...)`. -/
def deriveNameFromSlug (s : String) : String :=
  match s.data with
  | [] => ""
  | c :: rest => ⟨Char.toUpper c :: camelizeTail rest⟩

/-- `s.charAt(0).toLowerCase() + s.slice(1)`, used by the lead-in phrase
smoothing. -/
def lowerFirst (s : String) : String :=
  match s.data with
  | [] => ""
  | c :: rest => ⟨Char.toLower c :: rest⟩

/-- ASCII `String.prototype.toLowerCase` (the placeholder roleDefinition
lowercases a name; no claim involves non-ASCII case mapping). -/
def jsToLowerCase (s : String) : String :=
  ⟨s.data.map Char.toLower⟩

/-- The escaping test `/(?<!\\)\\([^\\])/.test(s)`: somewhere in `s` there
is a backslash that is not immediately preceded by a backslash and is
immediately followed by a non-backslash character.  The boolean argument
records whether the previous character was a backslash. -/
def scanInvalidEscaping : Bool → List Char → Bool
  | _, [] => false
  | prev, c :: rest =>
      if c == '\\' then
        match rest with
        | d :: _ =>
            if !prev && d != '\\' then true
            else scanInvalidEscaping true rest
        | [] => scanInvalidEscaping true rest
      else scanInvalidEscaping false rest

/-- `s` violates the JSON-escaping invariant checked at line 413 of the
source. -/
def invalidEscaping (s : String) : Bool :=
  scanInvalidEscaping false s.data

/-- The escaping auto-fix `s.replace(/\\(.)/g, '\\$1')`: each matched
backslash-plus-character pair is replaced by a backslash followed by that
same character.  A backslash followed by a line terminator is not matched
(regex `.`), so the engine keeps the backslash and rescans from the next
character. -/
def replaceEscPairs : List Char → List Char
  | [] => []
  | '\\' :: rest =>
      match rest with
      | c :: rest2 =>
          if jsDotExcluded c then '\\' :: replaceEscPairs (c :: rest2)
          else '\\' :: c :: replaceEscPairs rest2
      | [] => ['\\']
  | c :: rest => c :: replaceEscPairs rest

/-- The whole-string escaping auto-fix of source line 423. -/
def fixJsonEscaping (s : String) : String :=
  ⟨replaceEscPairs s.data⟩

/-- Error diagnostics, one constructor per `console.error`/`errors.push`
site of the source; record-level constructors carry the mode index,
group-level constructors the group index, mirroring the interpolated data
of the corresponding message. -/
inductive VError where
  | missingCustomModes
  | usingModesKey
  | modesNotArray
  | customModesNotArray
  | noModes
  | missingSlug (idx : Nat)
  | invalidSlugFormat (idx : Nat) (slug : String)
  | duplicateSlug (idx : Nat) (slug : String)
  | missingName (idx : Nat)
  | missingRoleDefinition (idx : Nat)
  | roleDefinitionNotString (idx : Nat)
  | missingGroups (idx : Nat)
  | groupsNotArray (idx : Nat)
  | invalidToolGroup (gidx : Nat) (name : String)
  | restrictionNotObject (gidx : Nat)
  | missingFileRegex (gidx : Nat)
  | invalidEscapingError (gidx : Nat) (pattern : String)
  | invalidRegex (gidx : Nat) (pattern : String)
  | missingDescription (gidx : Nat)
  | invalidGroupFormat (gidx : Nat)
deriving DecidableEq, Repr

/-- Warning diagnostics: the lead-in phrase warning (with its mode index)
and the constant backslash-doubling explanation pushed next to an escaping
error. -/
inductive VWarn where
  | roleDefinitionLeadIn (idx : Nat)
  | escapeDoubling
deriving DecidableEq, Repr

/-- `typeof v === 'object'` (true for `null`, arrays and plain objects). -/
def jsTypeofObject : JValue → Bool
  | .null => true
  | .arr _ => true
  | .obj _ => true
  | _ => false

/-- `v === null` (used for the property reads that throw on `null`). -/
def isNullB : JValue → Bool
  | .null => true
  | _ => false

/-- The result record of `validateGroups`.  When fix mode is off the source
holds `null` in `fixedGroups`; that unused value is modelled as `[]`. -/
structure GroupsResult where
  errors : List VError
  warnings : List VWarn
  fixedGroups : List JValue

/-- One iteration of the `groups.forEach` body of `validateGroups`
(source lines 351 to 474): classifies the entry, emits its error and
warning diagnostics, and returns the zero or one entries appended to
`fixedGroups`.  A tuple whose restriction is `null` passes the
`typeof === 'object'` test and then throws a `TypeError` when its
`fileRegex` property is read; likewise the escaping auto-fix throws when
`replace` is called on a non-string pattern. -/
def processGroup (group : JValue) (index : Nat) (fixMode : Bool)
    (compiles : String → Bool) :
    Except String (List VError × List VWarn × List JValue) :=
  match group with
  | .str s =>
      if VALID_TOOL_GROUPS.contains s then
        .ok ([], [], if fixMode then [.str s] else [])
      else
        .ok ([.invalidToolGroup index s], [], [])
  | .arr [groupName, restriction] =>
      let nameOk := isValidToolGroup groupName
      let eName : List VError :=
        if nameOk then [] else [.invalidToolGroup index (jsToString groupName)]
      let fixedGroupName : JValue :=
        if nameOk then groupName else if fixMode then .str "read" else groupName
      if !jsTypeofObject restriction then
        let eRest : List VError := [.restrictionNotObject index]
        let fixedRestriction : JValue :=
          if fixMode then
            .obj [("fileRegex", .str ".*"), ("description", .str "All files")]
          else restriction
        let errs := eName ++ eRest
        let adds : List JValue :=
          if fixMode then
            if errs.isEmpty then [.arr [fixedGroupName, fixedRestriction]]
            else if truthy fixedGroupName && truthy fixedRestriction then
              [.arr [fixedGroupName, fixedRestriction]]
            else []
          else []
        .ok (errs, [], adds)
      else
        if isNullB restriction then .error "TypeError: cannot read fileRegex of null"
        else do
          let frV := restriction.getProp "fileRegex"
          let (eRegex, warns, fixedRegex) ←
            match frV with
            | none =>
                Except.ok ([VError.missingFileRegex index], ([] : List VWarn),
                  if fixMode then some (JValue.str ".*") else none)
            | some v =>
              if !truthy v then
                Except.ok ([VError.missingFileRegex index], ([] : List VWarn),
                  if fixMode then some (JValue.str ".*") else some v)
              else
                let coerced := jsToString v
                if compiles coerced then
                  if invalidEscaping coerced then do
                    let fixedV ←
                      if fixMode then
                        match v with
                        | .str s => Except.ok (some (JValue.str (fixJsonEscaping s)))
                        | _ => Except.error "TypeError: replace is not a function"
                      else Except.ok (some v)
                    Except.ok ([VError.invalidEscapingError index coerced],
                      [VWarn.escapeDoubling], fixedV)
                  else
                    Except.ok (([] : List VError), ([] : List VWarn), some v)
                else
                  Except.ok ([VError.invalidRegex index coerced], ([] : List VWarn),
                    if fixMode then some (JValue.str ".*") else some v)
          let descV := restriction.getProp "description"
          let eDesc : List VError :=
            if !truthyO descV then [.missingDescription index] else []
          let fixedDescription : Option JValue :=
            if !truthyO descV then
              (if fixMode then some (.str "All files") else descV)
            else descV
          let fixedRestriction : JValue :=
            if fixMode then
              .obj ((match fixedRegex with
                     | some v => [("fileRegex", v)]
                     | none => []) ++
                    (match fixedDescription with
                     | some v => [("description", v)]
                     | none => []))
            else restriction
          let errs := eName ++ eRegex ++ eDesc
          let adds : List JValue :=
            if fixMode then
              if errs.isEmpty then [.arr [fixedGroupName, fixedRestriction]]
              else if truthy fixedGroupName && truthy fixedRestriction then
                [.arr [fixedGroupName, fixedRestriction]]
              else []
            else []
          .ok (errs, warns, adds)
  | _ => .ok ([.invalidGroupFormat index], [], [])

/-- The `groups.forEach` loop of `validateGroups`, threading the running
index and accumulating diagnostics and fixed entries in order. -/
def groupsLoop (fixMode : Bool) (compiles : String → Bool) :
    Nat → List VError → List VWarn → List JValue → List JValue →
    Except String (List VError × List VWarn × List JValue)
  | _, errs, warns, fixed, [] => .ok (errs, warns, fixed)
  | index, errs, warns, fixed, g :: rest => do
      let (e, w, adds) ← processGroup g index fixMode compiles
      groupsLoop fixMode compiles (index + 1) (errs ++ e) (warns ++ w) (fixed ++ adds) rest

/-- `validateGroups(groups, fixMode)` (source lines 346 to 483): validates
each entry and, in fix mode, guarantees at least the default `read` group
in the fixed list. -/
def validateGroups (groups : List JValue) (fixMode : Bool)
    (compiles : String → Bool) : Except String GroupsResult := do
  let (errs, warns, fixed) ← groupsLoop fixMode compiles 0 [] [] [] groups
  let fixed := if fixMode && fixed.isEmpty then [JValue.str "read"] else fixed
  .ok { errors := errs, warnings := warns, fixedGroups := fixed }

/-- The slug checks (source lines 178 to 224): missing slug, slug format,
duplicate slug.  Returns the emitted errors, the updated slug set and the
updated fixed record.  A truthy non-string slug makes `slug.match` throw.
The duplicate-slug auto-fix overwrites the format auto-fix, and the
duplicate check always tests and records the original slug. -/
def checkSlug (m : JValue) (index : Nat) (fixMode : Bool) (slugs : List String)
    (r : JValue) : Except String (List VError × List String × JValue) :=
  let slugV := m.getProp "slug"
  if !truthyO slugV then
    .ok ([.missingSlug index], slugs,
      if fixMode then setProp r "slug" (.str ("mode-" ++ toString (index + 1))) else r)
  else
    match slugV with
    | some (.str s) =>
        let (e1, r1) :=
          if !slugFormatOk s then
            ([VError.invalidSlugFormat index s],
             if fixMode then setProp r "slug" (.str (sanitizeSlug s)) else r)
          else ([], r)
        if slugs.contains s then
          .ok (e1 ++ [.duplicateSlug index s], slugs,
            if fixMode then setProp r1 "slug" (.str (s ++ "-" ++ toString (index + 1))) else r1)
        else
          .ok (e1, slugs ++ [s], r1)
    | _ => .error "TypeError: match is not a function"

/-- The name check (source lines 226 to 238): a falsy name is an error; the
auto-fix derives a title-case name from the original slug when that slug is
truthy, else uses a placeholder. -/
def checkName (m : JValue) (index : Nat) (fixMode : Bool) (r : JValue) :
    Except String (List VError × JValue) :=
  let nameV := m.getProp "name"
  if !truthyO nameV then
    if fixMode then
      match m.getProp "slug" with
      | some sv =>
          if truthy sv then
            match sv with
            | .str s =>
                .ok ([.missingName index], setProp r "name" (.str (deriveNameFromSlug s)))
            | _ => .error "TypeError: charAt is not a function"
          else
            .ok ([.missingName index],
              setProp r "name" (.str ("Mode " ++ toString (index + 1))))
      | none =>
          .ok ([.missingName index],
            setProp r "name" (.str ("Mode " ++ toString (index + 1))))
    else .ok ([.missingName index], r)
  else .ok ([], r)

/-- The roleDefinition checks (source lines 240 to 270): missing, wrong
type, and the lead-in phrase warning whose auto-fix prepends the phrase to
the fixed record's current roleDefinition.  The missing-field auto-fix
lowercases `mode.name`, which throws on a truthy non-string name. -/
def checkRoleDef (m : JValue) (index : Nat) (fixMode : Bool) (r : JValue) :
    Except String (List VError × List VWarn × JValue) :=
  let rdV := m.getProp "roleDefinition"
  if !truthyO rdV then
    if fixMode then
      let nameV := m.getProp "name"
      if truthyO nameV then
        match nameV with
        | some (.str t) =>
            .ok ([.missingRoleDefinition index], [],
              setProp r "roleDefinition"
                (.str ("You are Roo, a " ++ jsToLowerCase t ++ " assistant.")))
        | _ => .error "TypeError: toLowerCase is not a function"
      else
        .ok ([.missingRoleDefinition index], [],
          setProp r "roleDefinition"
            (.str ("You are Roo, a " ++
              jsToLowerCase ("Mode " ++ toString (index + 1)) ++ " assistant.")))
    else .ok ([.missingRoleDefinition index], [], r)
  else
    match rdV with
    | some (.str s) =>
        if !strIncludes s "You are Roo" then
          if fixMode then
            match r.getProp "roleDefinition" with
            | some (.str t) =>
                if !strStartsWith t "You are Roo" then
                  .ok ([], [.roleDefinitionLeadIn index],
                    setProp r "roleDefinition" (.str ("You are Roo, " ++ lowerFirst t)))
                else .ok ([], [.roleDefinitionLeadIn index], r)
            | _ => .error "TypeError: startsWith is not a function"
          else .ok ([], [.roleDefinitionLeadIn index], r)
        else .ok ([], [], r)
    | some v =>
        .ok ([.roleDefinitionNotString index], [],
          if fixMode then setProp r "roleDefinition" (.str (jsToString v)) else r)
    | none => .ok ([], [], r)

/-- The groups checks (source lines 273 to 313): missing groups, groups not
an array, or per-entry validation through `validateGroups`; the fixed
groups list replaces the record's groups only when at least one group error
was found. -/
def checkGroups (m : JValue) (index : Nat) (fixMode : Bool)
    (compiles : String → Bool) (r : JValue) :
    Except String (List VError × List VWarn × JValue) :=
  let gV := m.getProp "groups"
  if !truthyO gV then
    .ok ([.missingGroups index], [],
      if fixMode then setProp r "groups" (.arr [.str "read"]) else r)
  else
    match gV with
    | some (.arr l) => do
        let gr ← validateGroups l fixMode compiles
        if gr.errors.isEmpty then
          .ok ([], gr.warnings, r)
        else
          .ok (gr.errors, gr.warnings,
            if fixMode then setProp r "groups" (.arr gr.fixedGroups) else r)
    | _ =>
        .ok ([.groupsNotArray index], [],
          if fixMode then setProp r "groups" (.arr [.str "read"]) else r)

/-- One iteration of the `modesData.forEach` body (source lines 168 to
316): the progress line reads `mode.name`, which throws on a `null` entry;
the fixed record starts as a deep copy of the mode and each failed check
substitutes into it.  Returns emitted errors and warnings, the updated slug
set, and the fixed record. -/
def processMode (m : JValue) (index : Nat) (fixMode : Bool)
    (compiles : String → Bool) (slugs : List String) :
    Except String (List VError × List VWarn × List String × JValue) :=
  if isNullB m then .error "TypeError: cannot read name of null"
  else do
    let r0 := m
    let (e1, slugs1, r1) ← checkSlug m index fixMode slugs r0
    let (e2, r2) ← checkName m index fixMode r1
    let (e3, w3, r3) ← checkRoleDef m index fixMode r2
    let (e4, w4, r4) ← checkGroups m index fixMode compiles r3
    .ok (e1 ++ e2 ++ e3 ++ e4, w3 ++ w4, slugs1, r4)

/-- The `modesData.forEach` loop, threading the mode index, the slug set,
the diagnostic transcript, the `hasErrors` flag (the source sets it at
exactly the sites that emit an error, so each mode contributes
`!e.isEmpty`) and the fixed records accumulated in index order. -/
def processModes (fixMode : Bool) (compiles : String → Bool) :
    Nat → List String → List VError → List VWarn → Bool → List JValue →
    List JValue → Except String (List VError × List VWarn × Bool × List JValue)
  | _, _, errs, warns, he, fixedAcc, [] => .ok (errs, warns, he, fixedAcc)
  | index, slugs, errs, warns, he, fixedAcc, m :: rest => do
      let (e, w, slugs1, fr) ← processMode m index fixMode compiles slugs
      processModes fixMode compiles (index + 1) slugs1 (errs ++ e) (warns ++ w)
        (he || !e.isEmpty) (fixedAcc ++ [fr]) rest

/-- The overall result of `validateRoomodes` (`result` plus the diagnostic
transcript the source prints to the console). -/
structure VResult where
  isValid : Bool
  hasErrors : Bool
  errors : List VError
  warnings : List VWarn
  fixedContent : Option JValue

/-- The structural stage (source lines 124 to 154): recognizes the
canonical `customModes` key and the deprecated `modes` alias, emits the
container diagnostics and selects `modesData`.  Every structural error site
also sets `hasErrors`, so that flag equals nonemptiness of the returned
error list. -/
def structuralStage (parsedContent : JValue) : List VError × List JValue :=
  let customModesV := parsedContent.getProp "customModes"
  let modesV := parsedContent.getProp "modes"
  if !truthyO customModesV && !truthyO modesV then
    ([.missingCustomModes], [])
  else if truthyO modesV && !truthyO customModesV then
    match modesV with
    | some (.arr l) => ([.usingModesKey], l)
    | _ => ([.usingModesKey, .modesNotArray], [])
  else
    match customModesV with
    | some (.arr l) => ([], l)
    | _ => ([.customModesNotArray], [])

/-- `validateRoomodes(filePath, fixMode)` from successful `JSON.parse`
onwards (source lines 118 to 343).  Reading `customModes` of a `null`
document throws.  `result.fixedContent` is produced when errors were found
in fix mode, or through the final alias-rename branch (source lines 333 to
339, kept although the alias always sets `hasErrors` earlier). -/
def validateRoomodes (parsedContent : JValue) (fixMode : Bool)
    (compiles : String → Bool) : Except String VResult :=
  if isNullB parsedContent then .error "TypeError: cannot read customModes of null"
  else do
    let (errs0, modesData) := structuralStage parsedContent
    let hasErrors0 := !errs0.isEmpty
    let (errs1, hasErrors1) :=
      if modesData.isEmpty then (errs0 ++ [VError.noModes], true)
      else (errs0, hasErrors0)
    let (errsAll, warns, hasErrors, fixedAcc) ←
      processModes fixMode compiles 0 [] errs1 [] hasErrors1 [] modesData
    if hasErrors then
      .ok { isValid := false, hasErrors := true, errors := errsAll,
            warnings := warns,
            fixedContent :=
              if fixMode then some (.obj [("customModes", .arr fixedAcc)])
              else none }
    else if fixMode && truthyO (parsedContent.getProp "modes")
        && !truthyO (parsedContent.getProp "customModes") then
      .ok { isValid := true, hasErrors := false, errors := errsAll,
            warnings := warns,
            fixedContent :=
              some (.obj [("customModes",
                ((parsedContent.getProp "modes").getD .null))]) }
    else
      .ok { isValid := true, hasErrors := false, errors := errsAll,
            warnings := warns, fixedContent := none }

/-- The process exit of `main` (source line 512): `none` models a file that
could not be read or whose text failed `JSON.parse`, both of which return
`isValid: false`; otherwise the exit code is `0` precisely when
`result.isValid` is true. -/
def exitCode (parsed : Option JValue) (fixMode : Bool)
    (compiles : String → Bool) : Except String Nat :=
  match parsed with
  | none => .ok 1
  | some v => (validateRoomodes v fixMode compiles).map
      (fun res => if res.isValid then 0 else 1)

/-- The oracle used for concrete counterexamples: every pattern they
contain compiles under the JavaScript engine, so the constant-true oracle
is faithful there. -/
def regexAlwaysCompiles : String → Bool := fun _ => true

/-- The fixed records array inside `result.fixedContent`. -/
def fixedModesOf (r : VResult) : Option (List JValue) :=
  match r.fixedContent with
  | some f =>
      match f.getProp "customModes" with
      | some (.arr l) => some l
      | _ => none
  | none => none

/-- Extract the underlying string of an optional value. -/
def asStr : Option JValue → Option String
  | some (.str s) => some s
  | _ => none

/-- A record's slug as a string, when it is one. -/
def slugOf (m : JValue) : Option String :=
  asStr (m.getProp "slug")

/-- The `fileRegex` pattern of a tuple-shaped group entry. -/
def restrictionPattern : JValue → Option JValue
  | .arr [_, rest] => rest.getProp "fileRegex"
  | _ => none

/-- `Array.isArray(v)`. -/
def isArr : JValue → Bool
  | .arr _ => true
  | _ => false

/-- The record class for which the fix substitutions are self-consistent:
a valid slug, and the other fields either missing/falsy (so the fix
synthesizes them) or of the benign shapes whose checks pass or whose fixes
re-validate (a string name, a string roleDefinition, and capabilities that
are absent, a non-array, or an array validating with no group errors). -/
def FixableRecord (c : String → Bool) (m : JValue) (s : String) : Prop :=
  m.getProp "slug" = some (.str s) ∧ slugFormatOk s = true ∧
  (truthyO (m.getProp "name") = false ∨ ∃ t, m.getProp "name" = some (.str t)) ∧
  (truthyO (m.getProp "roleDefinition") = false ∨
    ∃ t, m.getProp "roleDefinition" = some (.str t)) ∧
  (truthyO (m.getProp "groups") = false ∨
    (∃ g, m.getProp "groups" = some g ∧ truthy g = true ∧ isArr g = false) ∨
    (∃ lg gr, m.getProp "groups" = some (.arr lg) ∧
      validateGroups lg true c = .ok gr ∧ gr.errors = []))

/-- The record class that re-validates with no errors and no fixes: valid
slug, truthy string name, roleDefinition containing the lead-in phrase,
and a capability array with no group errors. -/
def CleanRecord (c : String → Bool) (m : JValue) (s : String) : Prop :=
  m.getProp "slug" = some (.str s) ∧ slugFormatOk s = true ∧
  (∃ t, m.getProp "name" = some (.str t) ∧ t ≠ "") ∧
  (∃ t, m.getProp "roleDefinition" = some (.str t) ∧
    strIncludes t "You are Roo" = true) ∧
  (∃ lg gr, m.getProp "groups" = some (.arr lg) ∧
    validateGroups lg false c = .ok gr ∧ gr.errors = [])

section Lemmas

/-- Bind on a successful `Except` computation reduces. -/
theorem okBind {α β : Type} (a : α) (f : α → Except String β) :
    (Except.ok a >>= f : Except String β) = f a := rfl

/-- Bind on a failed `Except` computation propagates the error. -/
theorem errBind {α β : Type} (e : String) (f : α → Except String β) :
    (Except.error e >>= f : Except String β) = Except.error e := rfl

/-- A successful property read implies the value is an object. -/
theorem getProp_some_obj {m : JValue} {k : String} {x : JValue}
    (h : m.getProp k = some x) : ∃ fs, m = .obj fs := by
  cases m with
  | obj fs => exact ⟨fs, rfl⟩
  | null => simp [JValue.getProp] at h
  | bool b => simp [JValue.getProp] at h
  | num n => simp [JValue.getProp] at h
  | str s => simp [JValue.getProp] at h
  | arr l => simp [JValue.getProp] at h

/-- Equation lemma for property lookup on an object. -/
theorem getProp_obj (fs : List (String × JValue)) (k : String) :
    (JValue.obj fs).getProp k = (fs.find? (fun p => p.1 == k)).map (·.2) := rfl

/-- Equation lemma for property assignment on an object. -/
theorem setProp_eq_obj (fs : List (String × JValue)) (k : String) (v : JValue) :
    setProp (.obj fs) k v =
      if fs.any (fun p => p.1 == k) then
        .obj (fs.map (fun p => if p.1 == k then (k, v) else p))
      else .obj (fs ++ [(k, v)]) := rfl

/-- `setProp` on an object yields an object. -/
theorem setProp_obj (fs : List (String × JValue)) (k : String) (v : JValue) :
    ∃ fs2, setProp (.obj fs) k v = .obj fs2 := by
  rw [setProp_eq_obj]
  by_cases h : fs.any (fun p => p.1 == k)
  · rw [if_pos h]; exact ⟨_, rfl⟩
  · rw [if_neg h]; exact ⟨_, rfl⟩

/-- In-place update of a present key is found by lookup. -/
theorem find_map_update (fs : List (String × JValue)) (k : String) (v : JValue)
    (h : fs.any (fun p => p.1 == k) = true) :
    (fs.map (fun p => if p.1 == k then (k, v) else p)).find? (fun p => p.1 == k) =
      some (k, v) := by
  induction fs with
  | nil => simp at h
  | cons p rest ih =>
      simp only [List.map_cons]
      cases hp : (p.1 == k) with
      | true =>
          rw [if_pos rfl]
          simp [List.find?_cons]
      | false =>
          simp only [List.any_cons, hp, Bool.false_or] at h
          rw [if_neg (by simp)]
          simp only [List.find?_cons, hp]
          exact ih h

/-- Reading back the property just written. -/
theorem setProp_getProp_same (fs : List (String × JValue)) (k : String) (v : JValue) :
    (setProp (.obj fs) k v).getProp k = some v := by
  rw [setProp_eq_obj]
  by_cases h : fs.any (fun p => p.1 == k)
  · rw [if_pos h, getProp_obj, find_map_update fs k v h]
    rfl
  · rw [if_neg h, getProp_obj, List.find?_append]
    have hnone : fs.find? (fun p => p.1 == k) = none := by
      rw [List.find?_eq_none]
      intro x hx hpx
      exact h (List.any_eq_true.mpr ⟨x, hx, hpx⟩)
    rw [hnone]
    simp [List.find?]

/-- In-place update of key `k` does not disturb lookup of `k2 ≠ k`. -/
theorem find_map_update_ne (fs : List (String × JValue)) (k k2 : String)
    (v : JValue) (h : k2 ≠ k) :
    (fs.map (fun p => if p.1 == k then (k, v) else p)).find? (fun p => p.1 == k2) =
      fs.find? (fun p => p.1 == k2) := by
  induction fs with
  | nil => rfl
  | cons p rest ih =>
      simp only [List.map_cons]
      cases hp : (p.1 == k) with
      | true =>
          have hk : p.1 = k := by simpa using hp
          have hne : (k == k2) = false := by
            simp only [beq_eq_false_iff_ne]
            exact fun hh => h hh.symm
          have hne2 : (p.1 == k2) = false := by rw [hk]; exact hne
          rw [if_pos rfl]
          simp only [List.find?_cons, hne, hne2]
          exact ih
      | false =>
          rw [if_neg (by simp)]
          cases hp2 : (p.1 == k2) with
          | true => simp only [List.find?_cons, hp2]
          | false =>
              simp only [List.find?_cons, hp2]
              exact ih

/-- Writing one property leaves every other property unchanged. -/
theorem setProp_getProp_ne (o : JValue) (k k2 : String) (v : JValue)
    (h : k2 ≠ k) : (setProp o k v).getProp k2 = o.getProp k2 := by
  cases o with
  | obj fs =>
      rw [setProp_eq_obj]
      by_cases hany : fs.any (fun p => p.1 == k)
      · rw [if_pos hany, getProp_obj, getProp_obj, find_map_update_ne fs k k2 v h]
      · rw [if_neg hany, getProp_obj, getProp_obj, List.find?_append]
        have hlast : List.find? (fun p => p.1 == k2) [(k, v)] = none := by
          have hne : (k == k2) = false := by
            simp only [beq_eq_false_iff_ne]
            exact fun hh => h hh.symm
          simp [List.find?, hne]
        rw [hlast]
        cases fs.find? (fun p => p.1 == k2) <;> rfl
  | null => rfl
  | bool b => rfl
  | num n => rfl
  | str s => rfl
  | arr l => rfl

/-- Leading characters are preserved under extension of the larger list. -/
theorem listLeads_append (a : List Char) : ∀ b c2, listLeads a b = true →
    listLeads a (b ++ c2) = true := by
  induction a with
  | nil => intro b c2 _; rfl
  | cons x xs ih =>
      intro b c2 h
      cases b with
      | nil => simp [listLeads] at h
      | cons y ys =>
          simp only [listLeads, Bool.and_eq_true] at h
          simp only [List.cons_append, listLeads, Bool.and_eq_true]
          exact ⟨h.1, ih ys c2 h.2⟩

/-- Every list leads itself extended by a tail. -/
theorem listLeads_self (a : List Char) : ∀ c2, listLeads a (a ++ c2) = true := by
  induction a with
  | nil => intro c2; rfl
  | cons x xs ih =>
      intro c2
      simp only [List.cons_append, listLeads, Bool.and_eq_true]
      exact ⟨by simp, ih c2⟩

/-- A needle that leads the haystack is included in it. -/
theorem strIncludes_of_leads (hay needle : String)
    (h : listLeads needle.data hay.data = true) : strIncludes hay needle = true := by
  unfold strIncludes
  rw [List.any_eq_true]
  exact ⟨0, by simp, by simpa using h⟩

/-- `hay.startsWith(p)` implies `hay.includes(p)`. -/
theorem strIncludes_of_startsWith (hay p : String)
    (h : strStartsWith hay p = true) : strIncludes hay p = true :=
  strIncludes_of_leads hay p h

/-- Prepending a string containing the needle as a prefix makes the whole
string include the needle. -/
theorem strIncludes_prefix (p t : String) (needle : String)
    (h : listLeads needle.data p.data = true) :
    strIncludes (p ++ t) needle = true := by
  apply strIncludes_of_leads
  rw [String.data_append]
  exact listLeads_append needle.data p.data t.data h

/-- The escaping auto-fix is the identity on character lists: every matched
backslash-character pair is replaced by itself. -/
theorem replaceEscPairs_id : ∀ l : List Char, replaceEscPairs l = l
  | [] => rfl
  | [c] => by
      by_cases hc : c = '\\'
      · subst hc; rfl
      · simp [replaceEscPairs, hc]
  | c :: d :: rest => by
      by_cases hc : c = '\\'
      · subst hc
        by_cases hd : jsDotExcluded d
        · simp [replaceEscPairs, hd, replaceEscPairs_id (d :: rest)]
        · simp [replaceEscPairs, hd, replaceEscPairs_id rest]
      · simp [replaceEscPairs, hc, replaceEscPairs_id (d :: rest)]

/-- The whole-string escaping auto-fix is the identity. -/
theorem fixJsonEscaping_id (s : String) : fixJsonEscaping s = s := by
  unfold fixJsonEscaping
  rw [replaceEscPairs_id]

/-- In fix mode `validateGroups` never returns an empty fixed list: the
final guard appends the default `read` group. -/
theorem validateGroups_fix_nonempty (l : List JValue) (c : String → Bool)
    (gr : GroupsResult) (h : validateGroups l true c = .ok gr) :
    gr.fixedGroups ≠ [] := by
  unfold validateGroups at h
  cases h0 : groupsLoop true c 0 [] [] [] l with
  | error e => rw [h0] at h; exact absurd h (by simp [errBind])
  | ok t =>
      obtain ⟨errs, warns, fixed⟩ := t
      rw [h0, okBind] at h
      simp only [Except.ok.injEq] at h
      subst h
      cases hfx : fixed.isEmpty with
      | true => simp [hfx]
      | false => simp [hfx, ← List.isEmpty_iff]

/-- Objects are always truthy. -/
theorem truthy_obj (fs : List (String × JValue)) : truthy (.obj fs) = true := rfl

/-- Arrays are always truthy. -/
theorem truthy_arr (l : List JValue) : truthy (.arr l) = true := rfl

/-- A string is truthy when nonempty. -/
theorem truthy_str (s : String) : truthy (.str s) = (s != "") := rfl

/-- Truthiness of a present property is that of its value. -/
theorem truthyO_some (v : JValue) : truthyO (some v) = truthy v := rfl

/-- A missing property is falsy. -/
theorem truthyO_none : truthyO none = false := rfl

/-- Every enumerated tool-group value is a truthy (nonempty) string. -/
theorem validToolGroup_truthy (g : JValue) (h : isValidToolGroup g = true) :
    truthy g = true := by
  cases g with
  | str s =>
      simp only [isValidToolGroup, VALID_TOOL_GROUPS] at h
      have : s ∈ ["read", "edit", "browser", "command", "mcp"] := by
        simpa using h
      fin_cases this <;> rfl
  | null => simp [isValidToolGroup] at h
  | bool b => simp [isValidToolGroup] at h
  | num n => simp [isValidToolGroup] at h
  | arr l => simp [isValidToolGroup] at h
  | obj fs => simp [isValidToolGroup] at h

/-- The slug checks only ever write the `slug` field of the fixed record
and keep it an object. -/
theorem checkSlug_frame (m : JValue) (i : Nat) (fm : Bool) (slugs : List String)
    (r : JValue) (e : List VError) (sl2 : List String) (r2 : JValue)
    (h : checkSlug m i fm slugs r = .ok (e, sl2, r2)) :
    (∀ k, k ≠ "slug" → r2.getProp k = r.getProp k) ∧
    (∀ fs, r = .obj fs → ∃ fs2, r2 = .obj fs2) := by
  have fin0 : ∀ r3 : JValue, r3 = r →
      (∀ k, k ≠ "slug" → r3.getProp k = r.getProp k) ∧
      (∀ fs, r = .obj fs → ∃ fs2, r3 = .obj fs2) := by
    intro r3 hr3; subst hr3; exact ⟨fun _ _ => rfl, fun fs hfs => ⟨fs, hfs⟩⟩
  have fin1 : ∀ x : JValue,
      (∀ k, k ≠ "slug" → (setProp r "slug" x).getProp k = r.getProp k) ∧
      (∀ fs, r = .obj fs → ∃ fs2, setProp r "slug" x = .obj fs2) := by
    intro x
    refine ⟨fun k hk => setProp_getProp_ne r "slug" k x hk, fun fs hfs => ?_⟩
    subst hfs; exact setProp_obj fs "slug" x
  have fin2 : ∀ x y : JValue,
      (∀ k, k ≠ "slug" → (setProp (setProp r "slug" x) "slug" y).getProp k = r.getProp k) ∧
      (∀ fs, r = .obj fs → ∃ fs2, setProp (setProp r "slug" x) "slug" y = .obj fs2) := by
    intro x y
    constructor
    · intro k hk
      rw [setProp_getProp_ne _ "slug" k y hk, setProp_getProp_ne r "slug" k x hk]
    · intro fs hfs
      subst hfs
      obtain ⟨fs1, h1⟩ := setProp_obj fs "slug" x
      rw [h1]
      exact setProp_obj fs1 "slug" y
  simp only [checkSlug] at h
  split at h
  · simp only [Except.ok.injEq, Prod.mk.injEq] at h
    obtain ⟨-, -, hr⟩ := h
    cases fm with
    | true => rw [if_pos rfl] at hr; rw [← hr]; exact fin1 _
    | false => rw [if_neg (by simp)] at hr; exact fin0 _ hr.symm
  · split at h
    · next s heq =>
        split at h
        · next hfmt =>
            split at h
            · simp only [Except.ok.injEq, Prod.mk.injEq] at h
              obtain ⟨-, -, hr⟩ := h
              cases fm with
              | true =>
                  rw [if_pos rfl, if_pos rfl] at hr
                  rw [← hr]; exact fin2 _ _
              | false =>
                  rw [if_neg (by simp), if_neg (by simp)] at hr
                  exact fin0 _ hr.symm
            · simp only [Except.ok.injEq, Prod.mk.injEq] at h
              obtain ⟨-, -, hr⟩ := h
              cases fm with
              | true => rw [if_pos rfl] at hr; rw [← hr]; exact fin1 _
              | false => rw [if_neg (by simp)] at hr; exact fin0 _ hr.symm
        · next hfmt =>
            split at h
            · simp only [Except.ok.injEq, Prod.mk.injEq] at h
              obtain ⟨-, -, hr⟩ := h
              cases fm with
              | true => rw [if_pos rfl] at hr; rw [← hr]; exact fin1 _
              | false => rw [if_neg (by simp)] at hr; exact fin0 _ hr.symm
            · simp only [Except.ok.injEq, Prod.mk.injEq] at h
              obtain ⟨-, -, hr⟩ := h
              exact fin0 _ hr.symm
    · exact absurd h (by simp)

/-- Frame conditions follow from a record being either untouched or
updated at a single key. -/
theorem frame_of_setProp (r : JValue) (key : String) (r2 : JValue)
    (hcase : r2 = r ∨ ∃ x, r2 = setProp r key x) :
    (∀ k, k ≠ key → r2.getProp k = r.getProp k) ∧
    (∀ fs, r = .obj fs → ∃ fs2, r2 = .obj fs2) := by
  rcases hcase with hr | ⟨x, hr⟩
  · subst hr; exact ⟨fun _ _ => rfl, fun fs hfs => ⟨fs, hfs⟩⟩
  · subst hr
    refine ⟨fun k hk => setProp_getProp_ne r key k x hk, fun fs hfs => ?_⟩
    subst hfs; exact setProp_obj fs key x

/-- The name check only ever writes the `name` field of the fixed record
and keeps it an object. -/
theorem checkName_frame (m : JValue) (i : Nat) (fm : Bool) (r : JValue)
    (e : List VError) (r2 : JValue) (h : checkName m i fm r = .ok (e, r2)) :
    (∀ k, k ≠ "name" → r2.getProp k = r.getProp k) ∧
    (∀ fs, r = .obj fs → ∃ fs2, r2 = .obj fs2) := by
  simp only [checkName] at h
  repeat' split at h
  all_goals
    first
    | (simp only [Except.ok.injEq, Prod.mk.injEq] at h
       obtain ⟨-, hr⟩ := h
       first
       | exact frame_of_setProp r "name" r2 (Or.inl hr.symm)
       | exact frame_of_setProp r "name" r2 (Or.inl hr)
       | exact frame_of_setProp r "name" r2 (Or.inr ⟨_, hr.symm⟩))
    | exact absurd h (by simp)

/-- The roleDefinition checks only ever write the `roleDefinition` field of
the fixed record and keep it an object. -/
theorem checkRoleDef_frame (m : JValue) (i : Nat) (fm : Bool) (r : JValue)
    (e : List VError) (w : List VWarn) (r2 : JValue)
    (h : checkRoleDef m i fm r = .ok (e, w, r2)) :
    (∀ k, k ≠ "roleDefinition" → r2.getProp k = r.getProp k) ∧
    (∀ fs, r = .obj fs → ∃ fs2, r2 = .obj fs2) := by
  simp only [checkRoleDef] at h
  repeat' split at h
  all_goals
    first
    | (simp only [Except.ok.injEq, Prod.mk.injEq] at h
       obtain ⟨-, -, hr⟩ := h
       first
       | exact frame_of_setProp r "roleDefinition" r2 (Or.inl hr.symm)
       | exact frame_of_setProp r "roleDefinition" r2 (Or.inl hr)
       | exact frame_of_setProp r "roleDefinition" r2 (Or.inr ⟨_, hr.symm⟩))
    | exact absurd h (by simp)

/-- A slug check that emits no error leaves the fixed record untouched. -/
theorem checkSlug_noerror (m : JValue) (i : Nat) (fm : Bool)
    (slugs : List String) (r : JValue) (sl2 : List String) (r2 : JValue)
    (h : checkSlug m i fm slugs r = .ok ([], sl2, r2)) : r2 = r := by
  simp only [checkSlug] at h
  repeat' split at h
  all_goals
    first
    | (simp only [Except.ok.injEq, Prod.mk.injEq] at h
       obtain ⟨he, -, hr⟩ := h
       first
       | exact hr.symm
       | exact absurd he (by simp))
    | exact absurd h (by simp)

/-- A name check that emits no error leaves the fixed record untouched. -/
theorem checkName_noerror (m : JValue) (i : Nat) (fm : Bool) (r : JValue)
    (r2 : JValue) (h : checkName m i fm r = .ok ([], r2)) : r2 = r := by
  simp only [checkName] at h
  repeat' split at h
  all_goals
    first
    | (simp only [Except.ok.injEq, Prod.mk.injEq] at h
       obtain ⟨he, hr⟩ := h
       first
       | exact hr.symm
       | exact absurd he (by simp))
    | exact absurd h (by simp)

/-- A present roleDefinition string containing the lead-in phrase passes
the check with no diagnostics and no change to the fixed record, in either
mode. -/
theorem checkRoleDef_phrase_eq (m : JValue) (i : Nat) (fm : Bool) (r : JValue)
    (s : String) (hrd : m.getProp "roleDefinition" = some (.str s))
    (hph : strIncludes s "You are Roo" = true) :
    checkRoleDef m i fm r = .ok ([], [], r) := by
  have hs : s ≠ "" := by
    intro h0
    subst h0
    exact absurd hph (by decide)
  simp only [checkRoleDef, hrd]
  rw [if_neg (by simp [truthyO_some, truthy_str, bne_iff_ne, hs])]
  rw [if_neg (by simp [hph])]

/-- A groups check that emits no error leaves the fixed record untouched. -/
theorem checkGroups_noerror (m : JValue) (i : Nat) (fm : Bool)
    (c : String → Bool) (r : JValue) (w : List VWarn) (r2 : JValue)
    (h : checkGroups m i fm c r = .ok ([], w, r2)) : r2 = r := by
  simp only [checkGroups] at h
  split at h
  · exact absurd h (by simp)
  · split at h
    · next l heq =>
        cases hvg : validateGroups l fm c with
        | error s => rw [hvg, errBind] at h; exact absurd h (by simp)
        | ok gr =>
            rw [hvg, okBind] at h
            split at h
            · simp only [Except.ok.injEq, Prod.mk.injEq] at h
              obtain ⟨-, -, hr⟩ := h
              exact hr.symm
            · next hge =>
                simp only [Except.ok.injEq, Prod.mk.injEq] at h
                obtain ⟨he, -, -⟩ := h
                rw [he] at hge
                exact absurd rfl hge
    · exact absurd h (by simp)

/-- The diagnostics of one group entry do not depend on the fix flag: a
completed fix-mode classification yields the same errors and warnings in
validate mode, where nothing is appended to the fixed list. -/
theorem processGroup_fix_false (g : JValue) (i : Nat) (c : String → Bool)
    (e : List VError) (w : List VWarn) (adds : List JValue)
    (h : processGroup g i true c = .ok (e, w, adds)) :
    processGroup g i false c = .ok (e, w, []) := by
  cases g with
  | null =>
      simp only [processGroup] at h ⊢
      simp only [Except.ok.injEq, Prod.mk.injEq] at h
      obtain ⟨he, hw, -⟩ := h
      rw [← he, ← hw]
  | bool b =>
      simp only [processGroup] at h ⊢
      simp only [Except.ok.injEq, Prod.mk.injEq] at h
      obtain ⟨he, hw, -⟩ := h
      rw [← he, ← hw]
  | num n =>
      simp only [processGroup] at h ⊢
      simp only [Except.ok.injEq, Prod.mk.injEq] at h
      obtain ⟨he, hw, -⟩ := h
      rw [← he, ← hw]
  | obj fs =>
      simp only [processGroup] at h ⊢
      simp only [Except.ok.injEq, Prod.mk.injEq] at h
      obtain ⟨he, hw, -⟩ := h
      rw [← he, ← hw]
  | str s =>
      cases hc2 : VALID_TOOL_GROUPS.contains s <;>
        simp only [processGroup, hc2, Bool.false_eq_true, Bool.true_eq_false,
          if_true, if_false] at h ⊢ <;>
        simp only [Except.ok.injEq, Prod.mk.injEq] at h <;>
        obtain ⟨he, hw, -⟩ := h <;>
        rw [← he, ← hw]
  | arr l =>
      rcases l with _ | ⟨a, _ | ⟨b, _ | ⟨c0, l3⟩⟩⟩
      · simp only [processGroup] at h ⊢
        simp only [Except.ok.injEq, Prod.mk.injEq] at h
        obtain ⟨he, hw, -⟩ := h
        rw [← he, ← hw]
      · simp only [processGroup] at h ⊢
        simp only [Except.ok.injEq, Prod.mk.injEq] at h
        obtain ⟨he, hw, -⟩ := h
        rw [← he, ← hw]
      case cons.cons.nil =>
        -- the two-element tuple
        cases hto : jsTypeofObject b with
        | false =>
            cases hgn : isValidToolGroup a <;>
              simp only [processGroup, hto, hgn, Bool.not_false, Bool.not_true,
                Bool.false_eq_true, Bool.true_eq_false, if_true, if_false,
                List.nil_append, List.append_nil] at h ⊢ <;>
              simp only [Except.ok.injEq, Prod.mk.injEq] at h <;>
              obtain ⟨he, hw, -⟩ := h <;>
              rw [← he, ← hw]
        | true =>
            cases hnb : isNullB b with
            | true =>
                simp only [processGroup, hto, hnb, Bool.not_true,
                  Bool.false_eq_true, if_false, if_true, errBind] at h
                exact absurd h (by simp)
            | false =>
                cases hfr : b.getProp "fileRegex" with
                | none =>
                    cases hgn : isValidToolGroup a <;>
                    cases hdt : truthyO (b.getProp "description") <;>
                      simp only [processGroup, hto, hnb, hfr, hgn, hdt,
                        Bool.not_false, Bool.not_true, Bool.false_eq_true,
                        Bool.true_eq_false, if_true, if_false, okBind, errBind,
                        List.nil_append, List.append_nil] at h ⊢ <;>
                      simp only [Except.ok.injEq, Prod.mk.injEq] at h <;>
                      obtain ⟨he, hw, -⟩ := h <;>
                      rw [← he, ← hw]
                | some v =>
                    cases htv : truthy v with
                    | false =>
                        cases hgn : isValidToolGroup a <;>
                        cases hdt : truthyO (b.getProp "description") <;>
                          simp only [processGroup, hto, hnb, hfr, htv, hgn, hdt,
                            Bool.not_false, Bool.not_true, Bool.false_eq_true,
                            Bool.true_eq_false, if_true, if_false, okBind, errBind,
                            List.nil_append, List.append_nil] at h ⊢ <;>
                          simp only [Except.ok.injEq, Prod.mk.injEq] at h <;>
                          obtain ⟨he, hw, -⟩ := h <;>
                          rw [← he, ← hw]
                    | true =>
                        cases hcomp : c (jsToString v) with
                        | false =>
                            cases hgn : isValidToolGroup a <;>
                            cases hdt : truthyO (b.getProp "description") <;>
                              simp only [processGroup, hto, hnb, hfr, htv, hcomp,
                                hgn, hdt, Bool.not_false, Bool.not_true,
                                Bool.false_eq_true, Bool.true_eq_false, if_true,
                                if_false, okBind, errBind, List.nil_append,
                                List.append_nil] at h ⊢ <;>
                              simp only [Except.ok.injEq, Prod.mk.injEq] at h <;>
                              obtain ⟨he, hw, -⟩ := h <;>
                              rw [← he, ← hw]
                        | true =>
                            cases hesc : invalidEscaping (jsToString v) with
                            | false =>
                                cases hgn : isValidToolGroup a <;>
                                cases hdt : truthyO (b.getProp "description") <;>
                                  simp only [processGroup, hto, hnb, hfr, htv,
                                    hcomp, hesc, hgn, hdt, Bool.not_false,
                                    Bool.not_true, Bool.false_eq_true,
                                    Bool.true_eq_false, if_true, if_false,
                                    okBind, errBind, List.nil_append,
                                    List.append_nil] at h ⊢ <;>
                                  simp only [Except.ok.injEq, Prod.mk.injEq] at h <;>
                                  obtain ⟨he, hw, -⟩ := h <;>
                                  rw [← he, ← hw]
                            | true =>
                                cases v with
                                | str s2 =>
                                    have hcomp2 : c s2 = true := hcomp
                                    have hesc2 : invalidEscaping s2 = true := hesc
                                    have htv2 : truthy (JValue.str s2) = true := htv
                                    cases hgn : isValidToolGroup a <;>
                                    cases hdt : truthyO (b.getProp "description") <;>
                                      simp only [processGroup, hto, hnb, hfr, htv2,
                                        hcomp2, hesc2, hgn, hdt, jsToString,
                                        Bool.not_false, Bool.not_true,
                                        Bool.false_eq_true, Bool.true_eq_false,
                                        if_true, if_false, okBind, errBind,
                                        List.nil_append, List.append_nil] at h ⊢ <;>
                                      simp only [Except.ok.injEq, Prod.mk.injEq] at h <;>
                                      obtain ⟨he, hw, -⟩ := h <;>
                                      rw [← he, ← hw]
                                | null => exact absurd htv (by simp [truthy])
                                | bool b2 =>
                                    simp only [processGroup, hto, hnb, hfr, htv,
                                      hcomp, hesc, Bool.not_false, Bool.not_true,
                                      Bool.false_eq_true, Bool.true_eq_false,
                                      if_true, if_false, okBind, errBind] at h
                                    exact absurd h (by simp)
                                | num n2 =>
                                    simp only [processGroup, hto, hnb, hfr, htv,
                                      hcomp, hesc, Bool.not_false, Bool.not_true,
                                      Bool.false_eq_true, Bool.true_eq_false,
                                      if_true, if_false, okBind, errBind] at h
                                    exact absurd h (by simp)
                                | arr l4 =>
                                    simp only [processGroup, hto, hnb, hfr, htv,
                                      hcomp, hesc, Bool.not_false, Bool.not_true,
                                      Bool.false_eq_true, Bool.true_eq_false,
                                      if_true, if_false, okBind, errBind] at h
                                    exact absurd h (by simp)
                                | obj fs4 =>
                                    simp only [processGroup, hto, hnb, hfr, htv,
                                      hcomp, hesc, Bool.not_false, Bool.not_true,
                                      Bool.false_eq_true, Bool.true_eq_false,
                                      if_true, if_false, okBind, errBind] at h
                                    exact absurd h (by simp)
      case cons.cons.cons =>
        simp only [processGroup] at h ⊢
        simp only [Except.ok.injEq, Prod.mk.injEq] at h
        obtain ⟨he, hw, -⟩ := h
        rw [← he, ← hw]

/-- The whole group loop emits the same diagnostics in validate mode as in
a completed fix-mode run, with any fixed-list accumulator passing through. -/
theorem groupsLoop_fix_false (c : String → Bool) :
    ∀ (l : List JValue) (i : Nat) (errs : List VError) (warns : List VWarn)
      (fixed : List JValue) (E : List VError) (W : List VWarn)
      (F : List JValue),
      groupsLoop true c i errs warns fixed l = .ok (E, W, F) →
      ∀ fixed2 : List JValue,
        groupsLoop false c i errs warns fixed2 l = .ok (E, W, fixed2) := by
  intro l
  induction l with
  | nil =>
      intro i errs warns fixed E W F h fixed2
      have h2 : ((errs, warns, fixed) : List VError × List VWarn × List JValue)
          = (E, W, F) := by simpa [groupsLoop] using h
      cases h2
      simp [groupsLoop]
  | cons g rest ih =>
      intro i errs warns fixed E W F h fixed2
      simp only [groupsLoop] at h ⊢
      cases hp : processGroup g i true c with
      | error e2 => rw [hp, errBind] at h; exact absurd h (by simp)
      | ok t =>
          obtain ⟨e, w, adds⟩ := t
          rw [hp, okBind] at h
          rw [processGroup_fix_false g i c e w adds hp, okBind]
          have := ih (i + 1) (errs ++ e) (warns ++ w) (fixed ++ adds) E W F h
            (fixed2 ++ [])
          simpa using this

/-- A completed fix-mode group validation yields the same errors and
warnings in validate mode (where the fixed list stays the source's null,
modelled as the empty list). -/
theorem validateGroups_fix_false (l : List JValue) (c : String → Bool)
    (gr : GroupsResult) (h : validateGroups l true c = .ok gr) :
    validateGroups l false c = .ok
      { errors := gr.errors, warnings := gr.warnings, fixedGroups := [] } := by
  unfold validateGroups at h ⊢
  cases h0 : groupsLoop true c 0 [] [] [] l with
  | error e => rw [h0] at h; exact absurd h (by simp [errBind])
  | ok t =>
      obtain ⟨E, W, F⟩ := t
      rw [h0, okBind] at h
      simp only [Except.ok.injEq] at h
      rw [groupsLoop_fix_false c l 0 [] [] [] E W F h0 [], okBind]
      rw [← h]
      simp

/-- Membership in the slug set survives appending on the right. -/
theorem contains_append_left (l1 l2 : List String) (t : String)
    (h : l1.contains t = true) : (l1 ++ l2).contains t = true := by
  simp only [List.contains_iff_exists_mem_beq] at h ⊢
  obtain ⟨a, ha, hb⟩ := h
  exact ⟨a, List.mem_append_left _ ha, hb⟩

/-- The element just appended is in the slug set. -/
theorem contains_append_self (l : List String) (s : String) :
    (l ++ [s]).contains s = true := by
  simp only [List.contains_iff_exists_mem_beq]
  exact ⟨s, List.mem_append_right _ (List.mem_singleton.mpr rfl), by simp⟩

/-- If the record's slug string is already in the slug set, the slug check
emits at least one error (duplicate, or missing when the string is empty). -/
theorem checkSlug_dup (m : JValue) (i : Nat) (fm : Bool) (slugs : List String)
    (r : JValue) (e1 : List VError) (sl1 : List String) (r1 : JValue)
    (s : String) (hs : m.getProp "slug" = some (.str s))
    (hmem : slugs.contains s = true)
    (h : checkSlug m i fm slugs r = .ok (e1, sl1, r1)) : e1 ≠ [] := by
  simp only [checkSlug, hs] at h
  by_cases hse : s = ""
  · subst hse
    rw [if_pos (by simp [truthyO_some, truthy_str])] at h
    simp only [Except.ok.injEq, Prod.mk.injEq] at h
    obtain ⟨he, -, -⟩ := h
    rw [← he]
    simp
  · rw [if_neg (by simp [truthyO_some, truthy_str, bne_iff_ne, hse])] at h
    rw [if_pos hmem] at h
    simp only [Except.ok.injEq, Prod.mk.injEq] at h
    obtain ⟨he, -, -⟩ := h
    rw [← he]
    simp

/-- The slug set never loses members across the slug check. -/
theorem checkSlug_mono (m : JValue) (i : Nat) (fm : Bool) (slugs : List String)
    (r : JValue) (e1 : List VError) (sl1 : List String) (r1 : JValue)
    (t : String) (hmem : slugs.contains t = true)
    (h : checkSlug m i fm slugs r = .ok (e1, sl1, r1)) :
    sl1.contains t = true := by
  simp only [checkSlug] at h
  repeat' split at h
  all_goals
    first
    | (simp only [Except.ok.injEq, Prod.mk.injEq] at h
       obtain ⟨-, hsl, -⟩ := h
       rw [← hsl]
       first
       | exact hmem
       | exact contains_append_left slugs _ t hmem)
    | exact absurd h (by simp)

/-- After the slug check, the record's slug string is either registered in
the slug set or an error was emitted. -/
theorem checkSlug_registers (m : JValue) (i : Nat) (fm : Bool)
    (slugs : List String) (r : JValue) (e1 : List VError) (sl1 : List String)
    (r1 : JValue) (s : String) (hs : m.getProp "slug" = some (.str s))
    (h : checkSlug m i fm slugs r = .ok (e1, sl1, r1)) :
    sl1.contains s = true ∨ e1 ≠ [] := by
  simp only [checkSlug, hs] at h
  by_cases hse : s = ""
  · subst hse
    rw [if_pos (by simp [truthyO_some, truthy_str])] at h
    simp only [Except.ok.injEq, Prod.mk.injEq] at h
    obtain ⟨he, -, -⟩ := h
    right; rw [← he]; simp
  · rw [if_neg (by simp [truthyO_some, truthy_str, bne_iff_ne, hse])] at h
    by_cases hdup : slugs.contains s = true
    · rw [if_pos hdup] at h
      simp only [Except.ok.injEq, Prod.mk.injEq] at h
      obtain ⟨he, -, -⟩ := h
      right; rw [← he]; simp
    · rw [if_neg hdup] at h
      simp only [Except.ok.injEq, Prod.mk.injEq] at h
      obtain ⟨-, hsl, -⟩ := h
      left
      rw [← hsl]
      exact contains_append_self slugs s

/-- Decompose a completed record iteration into its four checks. -/
theorem processMode_decompose (m : JValue) (i : Nat) (fm : Bool)
    (c : String → Bool) (slugs : List String) (e : List VError)
    (w : List VWarn) (sl2 : List String) (fr : JValue)
    (h : processMode m i fm c slugs = .ok (e, w, sl2, fr)) :
    ∃ e1 r1 e2 r2 e3 w3 r3 e4 w4,
      checkSlug m i fm slugs m = .ok (e1, sl2, r1) ∧
      checkName m i fm r1 = .ok (e2, r2) ∧
      checkRoleDef m i fm r2 = .ok (e3, w3, r3) ∧
      checkGroups m i fm c r3 = .ok (e4, w4, fr) ∧
      e = e1 ++ e2 ++ e3 ++ e4 ∧ w = w3 ++ w4 := by
  simp only [processMode] at h
  split at h
  · exact absurd h (by simp)
  · cases h1 : checkSlug m i fm slugs m with
    | error s2 => rw [h1, errBind] at h; exact absurd h (by simp)
    | ok t1 =>
    obtain ⟨e1, sl1, r1⟩ := t1
    rw [h1, okBind] at h
    cases h2 : checkName m i fm r1 with
    | error s2 => rw [h2, errBind] at h; exact absurd h (by simp)
    | ok t2 =>
    obtain ⟨e2, r2⟩ := t2
    rw [h2, okBind] at h
    cases h3 : checkRoleDef m i fm r2 with
    | error s2 => rw [h3, errBind] at h; exact absurd h (by simp)
    | ok t3 =>
    obtain ⟨e3, w3, r3⟩ := t3
    rw [h3, okBind] at h
    cases h4 : checkGroups m i fm c r3 with
    | error s2 => rw [h4, errBind] at h; exact absurd h (by simp)
    | ok t4 =>
    obtain ⟨e4, w4, r4⟩ := t4
    rw [h4, okBind] at h
    simp only [Except.ok.injEq, Prod.mk.injEq] at h
    obtain ⟨hE, hW, hsl, hfr⟩ := h
    subst hsl
    subst hfr
    refine ⟨e1, r1, e2, r2, e3, w3, r3, e4, w4, ?_, ?_, ?_, ?_, hE.symm, hW.symm⟩
    · first | exact h1 | rfl
    · first | exact h2 | rfl
    · first | exact h3 | rfl
    · first | exact h4 | rfl

/-- The error transcript accumulated so far is a prefix of the final one. -/
theorem processModes_extend (fm : Bool) (c : String → Bool) :
    ∀ (l : List JValue) (i : Nat) (slugs : List String) (errs : List VError)
      (warns : List VWarn) (he : Bool) (acc : List JValue)
      (E : List VError) (W : List VWarn) (H : Bool) (A : List JValue),
      processModes fm c i slugs errs warns he acc l = .ok (E, W, H, A) →
      ∃ tail, E = errs ++ tail := by
  intro l
  induction l with
  | nil =>
      intro i slugs errs warns he acc E W H A h
      have h2 : ((errs, warns, he, acc) : List VError × List VWarn × Bool × List JValue)
          = (E, W, H, A) := by simpa [processModes] using h
      cases h2
      exact ⟨[], by simp⟩
  | cons m rest ih =>
      intro i slugs errs warns he acc E W H A h
      simp only [processModes] at h
      cases hm : processMode m i fm c slugs with
      | error e2 => rw [hm, errBind] at h; exact absurd h (by simp)
      | ok t =>
          obtain ⟨e, w, slugs1, fr⟩ := t
          rw [hm, okBind] at h
          obtain ⟨tail, htail⟩ := ih (i + 1) slugs1 (errs ++ e) (warns ++ w)
            (he || !e.isEmpty) (acc ++ [fr]) E W H A h
          exact ⟨e ++ tail, by rw [htail, List.append_assoc]⟩

/-- If some record in the remaining list carries a slug string that is
already registered (or registered by an earlier record of the list), the
final error transcript is nonempty. -/
theorem processModes_dup_error (fm : Bool) (c : String → Bool) :
    ∀ (xs : List JValue) (m2 : JValue) (rest : List JValue) (i : Nat)
      (slugs : List String) (errs : List VError) (warns : List VWarn)
      (he : Bool) (acc : List JValue) (E : List VError) (W : List VWarn)
      (H : Bool) (A : List JValue) (s : String),
      processModes fm c i slugs errs warns he acc (xs ++ m2 :: rest)
        = .ok (E, W, H, A) →
      m2.getProp "slug" = some (.str s) →
      (slugs.contains s = true ∨ ∃ m1 ∈ xs, m1.getProp "slug" = some (.str s)) →
      E ≠ [] := by
  intro xs
  induction xs with
  | nil =>
      intro m2 rest i slugs errs warns he acc E W H A s h hs hin
      rcases hin with hmem | ⟨m1, hm1, -⟩
      · simp only [List.nil_append, processModes] at h
        cases hm : processMode m2 i fm c slugs with
        | error e2 => rw [hm, errBind] at h; exact absurd h (by simp)
        | ok t =>
            obtain ⟨e, w, slugs1, fr⟩ := t
            rw [hm, okBind] at h
            obtain ⟨e1, r1, e2, r2, e3, w3, r3, e4, w4, hc1, -, -, -, hE, -⟩ :=
              processMode_decompose m2 i fm c slugs e w slugs1 fr hm
            have he1 : e1 ≠ [] := checkSlug_dup m2 i fm slugs m2 e1 slugs1 r1 s hs hmem hc1
            obtain ⟨tail, htail⟩ := processModes_extend fm c rest (i + 1) slugs1
              (errs ++ e) (warns ++ w) (he || !e.isEmpty) (acc ++ [fr]) E W H A h
            rw [htail, hE]
            intro hcon
            simp only [List.append_eq_nil, and_assoc] at hcon
            obtain ⟨-, h1c, -⟩ := hcon
            exact he1 h1c
      · exact absurd hm1 (by simp)
  | cons x xs2 ih =>
      intro m2 rest i slugs errs warns he acc E W H A s h hs hin
      simp only [List.cons_append, processModes] at h
      cases hm : processMode x i fm c slugs with
      | error e2 => rw [hm, errBind] at h; exact absurd h (by simp)
      | ok t =>
          obtain ⟨e, w, slugs1, fr⟩ := t
          rw [hm, okBind] at h
          rcases hin with hmem | ⟨m1, hm1, hm1s⟩
          · -- already registered: stays registered
            obtain ⟨e1, r1, e2, r2, e3, w3, r3, e4, w4, hc1, -, -, -, -, -⟩ :=
              processMode_decompose x i fm c slugs e w slugs1 fr hm
            have hmem1 : slugs1.contains s = true :=
              checkSlug_mono x i fm slugs x e1 slugs1 r1 s hmem hc1
            exact ih m2 rest (i + 1) slugs1 (errs ++ e) (warns ++ w)
              (he || !e.isEmpty) (acc ++ [fr]) E W H A s h hs (Or.inl hmem1)
          · rcases List.mem_cons.mp hm1 with hm1x | hm1xs
            · -- the earlier duplicate is the head record
              subst hm1x
              obtain ⟨e1, r1, e2, r2, e3, w3, r3, e4, w4, hc1, -, -, -, hE, -⟩ :=
                processMode_decompose m1 i fm c slugs e w slugs1 fr hm
              rcases checkSlug_registers m1 i fm slugs m1 e1 slugs1 r1 s hm1s hc1 with
                hreg | he1
              · exact ih m2 rest (i + 1) slugs1 (errs ++ e) (warns ++ w)
                  (he || !e.isEmpty) (acc ++ [fr]) E W H A s h hs (Or.inl hreg)
              · obtain ⟨tail, htail⟩ := processModes_extend fm c (xs2 ++ m2 :: rest)
                  (i + 1) slugs1 (errs ++ e) (warns ++ w) (he || !e.isEmpty)
                  (acc ++ [fr]) E W H A h
                rw [htail, hE]
                intro hcon
                simp only [List.append_eq_nil, and_assoc] at hcon
                obtain ⟨-, h1c, -⟩ := hcon
                exact he1 h1c
            · exact ih m2 rest (i + 1) slugs1 (errs ++ e) (warns ++ w)
                (he || !e.isEmpty) (acc ++ [fr]) E W H A s h hs
                (Or.inr ⟨m1, hm1xs, hm1s⟩)

/-- A valid, unregistered slug passes the slug checks and registers
itself without touching the fixed record. -/
theorem checkSlug_valid_eq (m : JValue) (i : Nat) (fm : Bool)
    (slugs : List String) (r : JValue) (s : String)
    (hs : m.getProp "slug" = some (.str s)) (hok : slugFormatOk s = true)
    (hnot : slugs.contains s = false) :
    checkSlug m i fm slugs r = .ok ([], slugs ++ [s], r) := by
  have hsne : (s != "") = true := by
    simp only [slugFormatOk, Bool.and_eq_true] at hok
    exact hok.1
  simp only [checkSlug, hs]
  rw [if_neg (by simp [truthyO_some, truthy_str, hsne])]
  rw [if_neg (by rw [hnot]; simp), if_neg (by rw [hok]; simp)]

/-- A truthy name passes the name check unchanged. -/
theorem checkName_present_eq (m : JValue) (i : Nat) (fm : Bool) (r : JValue)
    (hn : truthyO (m.getProp "name") = true) :
    checkName m i fm r = .ok ([], r) := by
  simp only [checkName]
  rw [if_neg (by simp [hn])]

/-- A falsy name with a truthy string slug is fixed to the title-cased
derivation of that slug. -/
theorem checkName_missing_fix_eq (m : JValue) (i : Nat) (r : JValue)
    (s : String) (hs : m.getProp "slug" = some (.str s))
    (hsne : (s != "") = true) (hn : truthyO (m.getProp "name") = false) :
    checkName m i true r
      = .ok ([.missingName i], setProp r "name" (.str (deriveNameFromSlug s))) := by
  simp only [checkName, hs]
  rw [if_pos (by rw [hn]; simp), if_pos (by trivial),
      if_pos (by simp [truthy_str, hsne])]

/-- A falsy roleDefinition with a truthy string name is fixed to the
lowercased placeholder built from that name. -/
theorem checkRoleDef_missing_nameStr_eq (m : JValue) (i : Nat) (r : JValue)
    (t : String) (hrd : truthyO (m.getProp "roleDefinition") = false)
    (hnm : m.getProp "name" = some (.str t))
    (htt : truthyO (m.getProp "name") = true) :
    checkRoleDef m i true r = .ok ([.missingRoleDefinition i], [],
      setProp r "roleDefinition"
        (.str ("You are Roo, a " ++ jsToLowerCase t ++ " assistant."))) := by
  simp only [checkRoleDef, hnm]
  rw [if_pos (by rw [hrd]; simp), if_pos (by trivial)]
  rw [if_pos (by rw [← hnm]; exact htt)]

/-- A falsy roleDefinition with a falsy name is fixed to the indexed
placeholder. -/
theorem checkRoleDef_missing_nameFalsy_eq (m : JValue) (i : Nat) (r : JValue)
    (hrd : truthyO (m.getProp "roleDefinition") = false)
    (hnm : truthyO (m.getProp "name") = false) :
    checkRoleDef m i true r = .ok ([.missingRoleDefinition i], [],
      setProp r "roleDefinition"
        (.str ("You are Roo, a " ++
          jsToLowerCase ("Mode " ++ toString (i + 1)) ++ " assistant."))) := by
  simp only [checkRoleDef]
  rw [if_pos (by rw [hrd]; simp), if_pos (by trivial), if_neg (by rw [hnm]; simp)]

/-- A string roleDefinition lacking the lead-in phrase warns and, in fix
mode, gets the phrase prepended onto the fixed record's current value. -/
theorem checkRoleDef_smooth_eq (m : JValue) (i : Nat) (r : JValue)
    (t : String) (hrd : m.getProp "roleDefinition" = some (.str t))
    (htne : (t != "") = true)
    (hni : strIncludes t "You are Roo" = false)
    (hrrd : r.getProp "roleDefinition" = some (.str t)) :
    checkRoleDef m i true r = .ok ([], [.roleDefinitionLeadIn i],
      setProp r "roleDefinition" (.str ("You are Roo, " ++ lowerFirst t))) := by
  have hsw : strStartsWith t "You are Roo" = false := by
    cases hsw2 : strStartsWith t "You are Roo" with
    | true => rw [strIncludes_of_startsWith t _ hsw2] at hni; exact absurd hni (by simp)
    | false => rfl
  simp only [checkRoleDef, hrd, hrrd]
  rw [if_neg (by simp [truthyO_some, truthy_str, htne])]
  rw [if_pos (by rw [hni]; simp), if_pos (by trivial), if_pos (by rw [hsw]; simp)]

/-- Falsy capabilities are fixed to the default read group. -/
theorem checkGroups_missing_fix_eq (m : JValue) (i : Nat) (c : String → Bool)
    (r : JValue) (hg : truthyO (m.getProp "groups") = false) :
    checkGroups m i true c r
      = .ok ([.missingGroups i], [], setProp r "groups" (.arr [.str "read"])) := by
  simp only [checkGroups]
  rw [if_pos (by rw [hg]; simp), if_pos (by trivial)]

/-- A truthy non-array capability value is fixed to the default read
group. -/
theorem checkGroups_notarr_fix_eq (m : JValue) (i : Nat) (c : String → Bool)
    (r : JValue) (g : JValue) (hg : m.getProp "groups" = some g)
    (ht : truthy g = true) (ha : isArr g = false) :
    checkGroups m i true c r
      = .ok ([.groupsNotArray i], [], setProp r "groups" (.arr [.str "read"])) := by
  cases g with
  | arr l => exact absurd ha (by simp [isArr])
  | null => exact absurd ht (by simp [truthy])
  | bool b =>
      simp only [checkGroups, hg]
      rw [if_neg (by simp [truthyO_some, ht]), if_pos (by trivial)]
  | num n =>
      simp only [checkGroups, hg]
      rw [if_neg (by simp [truthyO_some, ht]), if_pos (by trivial)]
  | str s =>
      simp only [checkGroups, hg]
      rw [if_neg (by simp [truthyO_some, ht]), if_pos (by trivial)]
  | obj fs =>
      simp only [checkGroups, hg]
      rw [if_neg (by simp [truthyO_some, ht]), if_pos (by trivial)]

/-- A capability array with no group errors passes the check unchanged,
reporting only the group warnings. -/
theorem checkGroups_cleanlist_eq (m : JValue) (i : Nat) (fm : Bool)
    (c : String → Bool) (r : JValue) (lg : List JValue) (gr : GroupsResult)
    (hg : m.getProp "groups" = some (.arr lg))
    (hvg : validateGroups lg fm c = .ok gr) (hge : gr.errors = []) :
    checkGroups m i fm c r = .ok ([], gr.warnings, r) := by
  simp only [checkGroups, hg]
  rw [if_neg (by simp [truthyO_some, truthy_arr])]
  rw [hvg, okBind]
  rw [if_pos (by rw [hge]; simp)]

/-- The groups checks only ever write the `groups` field of the fixed
record and keep it an object. -/
theorem checkGroups_frame (m : JValue) (i : Nat) (fm : Bool)
    (c : String → Bool) (r : JValue) (e : List VError) (w : List VWarn)
    (r2 : JValue) (h : checkGroups m i fm c r = .ok (e, w, r2)) :
    (∀ k, k ≠ "groups" → r2.getProp k = r.getProp k) ∧
    (∀ fs, r = .obj fs → ∃ fs2, r2 = .obj fs2) := by
  simp only [checkGroups] at h
  split at h
  · split at h <;>
      · simp only [Except.ok.injEq, Prod.mk.injEq] at h
        obtain ⟨-, -, hr⟩ := h
        first
        | exact frame_of_setProp r "groups" r2 (Or.inl hr.symm)
        | exact frame_of_setProp r "groups" r2 (Or.inr ⟨_, hr.symm⟩)
  · split at h
    · next l heq =>
        cases hvg : validateGroups l fm c with
        | error s => rw [hvg, errBind] at h; exact absurd h (by simp)
        | ok gr =>
            rw [hvg, okBind] at h
            repeat' split at h
            all_goals
              first
              | (simp only [Except.ok.injEq, Prod.mk.injEq] at h
                 obtain ⟨-, -, hr⟩ := h
                 first
                 | exact frame_of_setProp r "groups" r2 (Or.inl hr.symm)
                 | exact frame_of_setProp r "groups" r2 (Or.inr ⟨_, hr.symm⟩))
              | exact absurd h (by simp)
    · split at h <;>
        · simp only [Except.ok.injEq, Prod.mk.injEq] at h
          obtain ⟨-, -, hr⟩ := h
          first
          | exact frame_of_setProp r "groups" r2 (Or.inl hr.symm)
          | exact frame_of_setProp r "groups" r2 (Or.inr ⟨_, hr.symm⟩)

/-- A nonempty slug derives a nonempty placeholder name. -/
theorem deriveName_ne (s : String) (hs : s ≠ "") : deriveNameFromSlug s ≠ "" := by
  unfold deriveNameFromSlug
  cases s with
  | mk data =>
      cases data with
      | nil => exact absurd rfl hs
      | cons c0 rest =>
          intro hcon
          have h2 : (Char.toUpper c0 :: camelizeTail rest) = ([] : List Char) :=
            congrArg String.data hcon
          exact absurd h2 (by simp)

/-- Name stage of the fix run: starting from an object record whose name
field agrees with the mode, the name check yields a record with a nonempty
string name and touches nothing else. -/
theorem nameStage (m : JValue) (fs1 : List (String × JValue)) (i : Nat)
    (s : String)
    (hslug : m.getProp "slug" = some (.str s)) (hsne : (s != "") = true)
    (hnm : truthyO (m.getProp "name") = false ∨
      ∃ t, m.getProp "name" = some (.str t))
    (hn1 : (JValue.obj fs1).getProp "name" = m.getProp "name") :
    ∃ e2 r2, checkName m i true (.obj fs1) = .ok (e2, r2) ∧
      (∃ t, r2.getProp "name" = some (.str t) ∧ (t != "") = true) ∧
      (∀ k, k ≠ "name" → r2.getProp k = (JValue.obj fs1).getProp k) ∧
      (∃ fs2, r2 = .obj fs2) := by
  cases htn : truthyO (m.getProp "name") with
  | true =>
      rcases hnm with hfal | ⟨t, ht⟩
      · rw [hfal] at htn; exact absurd htn (by simp)
      · refine ⟨[], .obj fs1, checkName_present_eq m i true (.obj fs1) htn,
          ⟨t, ?_, ?_⟩, fun k _ => rfl, ⟨fs1, rfl⟩⟩
        · rw [hn1, ht]
        · rw [ht, truthyO_some, truthy_str] at htn; exact htn
  | false =>
      refine ⟨[.missingName i], setProp (.obj fs1) "name"
          (.str (deriveNameFromSlug s)),
        checkName_missing_fix_eq m i (.obj fs1) s hslug hsne htn,
        ⟨deriveNameFromSlug s, setProp_getProp_same fs1 "name" _, ?_⟩,
        fun k hk => setProp_getProp_ne (.obj fs1) "name" k _ hk,
        setProp_obj fs1 "name" _⟩
      rw [bne_iff_ne]
      exact deriveName_ne s (by simpa using hsne)

/-- Role-definition stage of the fix run: the check yields a record whose
roleDefinition is a string containing the lead-in phrase, touching nothing
else. -/
theorem rdStage (m : JValue) (fs2 : List (String × JValue)) (i : Nat)
    (hrdm : truthyO (m.getProp "roleDefinition") = false ∨
      ∃ t, m.getProp "roleDefinition" = some (.str t))
    (hnm : truthyO (m.getProp "name") = false ∨
      ∃ t, m.getProp "name" = some (.str t))
    (hrd2 : (JValue.obj fs2).getProp "roleDefinition"
      = m.getProp "roleDefinition") :
    ∃ e3 w3 r3, checkRoleDef m i true (.obj fs2) = .ok (e3, w3, r3) ∧
      (∃ t, r3.getProp "roleDefinition" = some (.str t) ∧
        strIncludes t "You are Roo" = true) ∧
      (∀ k, k ≠ "roleDefinition" → r3.getProp k = (JValue.obj fs2).getProp k) ∧
      (∃ fs3, r3 = .obj fs3) := by
  cases htr : truthyO (m.getProp "roleDefinition") with
  | false =>
      cases htn : truthyO (m.getProp "name") with
      | true =>
          rcases hnm with hfal | ⟨t, ht⟩
          · rw [hfal] at htn; exact absurd htn (by simp)
          · refine ⟨_, _, _,
              checkRoleDef_missing_nameStr_eq m i (.obj fs2) t htr ht htn,
              ⟨_, setProp_getProp_same fs2 "roleDefinition" _, ?_⟩,
              fun k hk => setProp_getProp_ne (.obj fs2) "roleDefinition" k _ hk,
              setProp_obj fs2 "roleDefinition" _⟩
            exact strIncludes_prefix "You are Roo, a "
              (jsToLowerCase t ++ " assistant.") "You are Roo" (by decide)
      | false =>
          refine ⟨_, _, _,
            checkRoleDef_missing_nameFalsy_eq m i (.obj fs2) htr htn,
            ⟨_, setProp_getProp_same fs2 "roleDefinition" _, ?_⟩,
            fun k hk => setProp_getProp_ne (.obj fs2) "roleDefinition" k _ hk,
            setProp_obj fs2 "roleDefinition" _⟩
          exact strIncludes_prefix "You are Roo, a "
            (jsToLowerCase ("Mode " ++ toString (i + 1)) ++ " assistant.")
            "You are Roo" (by decide)
  | true =>
      rcases hrdm with hfal | ⟨t, ht⟩
      · rw [hfal] at htr; exact absurd htr (by simp)
      · have htne : (t != "") = true := by
          rw [ht, truthyO_some, truthy_str] at htr; exact htr
        cases hin : strIncludes t "You are Roo" with
        | true =>
            refine ⟨[], [], .obj fs2,
              checkRoleDef_phrase_eq m i true (.obj fs2) t ht hin,
              ⟨t, ?_, hin⟩, fun k _ => rfl, ⟨fs2, rfl⟩⟩
            rw [hrd2, ht]
        | false =>
            refine ⟨_, _, _,
              checkRoleDef_smooth_eq m i (.obj fs2) t ht htne hin
                (by rw [hrd2, ht]),
              ⟨_, setProp_getProp_same fs2 "roleDefinition" _, ?_⟩,
              fun k hk => setProp_getProp_ne (.obj fs2) "roleDefinition" k _ hk,
              setProp_obj fs2 "roleDefinition" _⟩
            exact strIncludes_prefix "You are Roo, " (lowerFirst t)
              "You are Roo" (by decide)

/-- Groups stage of the fix run: the check yields a record whose groups
field is an array that revalidates without errors in non-fix mode, touching
nothing else. -/
theorem groupsStage (m : JValue) (fs3 : List (String × JValue)) (i : Nat)
    (c : String → Bool)
    (hgf : truthyO (m.getProp "groups") = false ∨
      (∃ g, m.getProp "groups" = some g ∧ truthy g = true ∧ isArr g = false) ∨
      (∃ lg gr, m.getProp "groups" = some (.arr lg) ∧
        validateGroups lg true c = .ok gr ∧ gr.errors = []))
    (hg3 : (JValue.obj fs3).getProp "groups" = m.getProp "groups") :
    ∃ e4 w4 fr, checkGroups m i true c (.obj fs3) = .ok (e4, w4, fr) ∧
      (∃ lg gr, fr.getProp "groups" = some (.arr lg) ∧
        validateGroups lg false c = .ok gr ∧ gr.errors = []) ∧
      (∀ k, k ≠ "groups" → fr.getProp k = (JValue.obj fs3).getProp k) ∧
      (∃ fs4, fr = .obj fs4) := by
  rcases hgf with hfal | ⟨g, hgg, hgt, hga⟩ | ⟨lg, gr, hgg, hvg, hge⟩
  · exact ⟨_, _, _, checkGroups_missing_fix_eq m i c (.obj fs3) hfal,
      ⟨[.str "read"], ⟨[], [], []⟩, setProp_getProp_same fs3 "groups" _,
        rfl, rfl⟩,
      fun k hk => setProp_getProp_ne (.obj fs3) "groups" k _ hk,
      setProp_obj fs3 "groups" _⟩
  · exact ⟨_, _, _, checkGroups_notarr_fix_eq m i c (.obj fs3) g hgg hgt hga,
      ⟨[.str "read"], ⟨[], [], []⟩, setProp_getProp_same fs3 "groups" _,
        rfl, rfl⟩,
      fun k hk => setProp_getProp_ne (.obj fs3) "groups" k _ hk,
      setProp_obj fs3 "groups" _⟩
  · exact ⟨_, _, _,
      checkGroups_cleanlist_eq m i true c (.obj fs3) lg gr hgg hvg hge,
      ⟨lg, _, by rw [hg3, hgg], validateGroups_fix_false lg c gr hvg, hge⟩,
      fun k _ => rfl, ⟨fs3, rfl⟩⟩

/-- A fixable record with a fresh valid slug is processed in fix mode
without throwing; the fixed record it produces is clean. -/
theorem processMode_fixable (c : String → Bool) (m : JValue) (s : String)
    (i : Nat) (slugs : List String) (hf : FixableRecord c m s)
    (hnot : slugs.contains s = false) :
    ∃ e w fr, processMode m i true c slugs = .ok (e, w, slugs ++ [s], fr) ∧
      CleanRecord c fr s := by
  obtain ⟨hs, hok, hname, hrdf, hgf⟩ := hf
  obtain ⟨fs, hm⟩ := getProp_some_obj hs
  subst hm
  have hsne : (s != "") = true := by
    simp only [slugFormatOk, Bool.and_eq_true] at hok
    exact hok.1
  have h1 : checkSlug (.obj fs) i true slugs (.obj fs)
      = .ok ([], slugs ++ [s], .obj fs) :=
    checkSlug_valid_eq (.obj fs) i true slugs (.obj fs) s hs hok hnot
  obtain ⟨e2, r2, h2, ⟨n2, hn2, hn2ne⟩, hfr2, fs2, hr2⟩ :=
    nameStage (.obj fs) fs i s hs hsne hname rfl
  obtain ⟨e3, w3, r3, h3, ⟨t3, hrd3, hin3⟩, hfr3, fs3, hr3⟩ :=
    rdStage (.obj fs) fs2 i hrdf hname
      (by rw [← hr2]; exact hfr2 "roleDefinition" (by decide))
  obtain ⟨e4, w4, fr, h4, hgclean, hfr4, fs4, hr4⟩ :=
    groupsStage (.obj fs) fs3 i c hgf
      (by rw [← hr3, hfr3 "groups" (by decide), ← hr2]
          exact hfr2 "groups" (by decide))
  have h3x : checkRoleDef (.obj fs) i true r2 = .ok (e3, w3, r3) := by
    rw [hr2]; exact h3
  have h4x : checkGroups (.obj fs) i true c r3 = .ok (e4, w4, fr) := by
    rw [hr3]; exact h4
  refine ⟨e2 ++ e3 ++ e4, w3 ++ w4, fr, ?_, ?_, hok, ?_, ?_, hgclean⟩
  · simp only [processMode]
    rw [if_neg (by simp [isNullB]), h1, okBind, h2, okBind, h3x, okBind,
      h4x, okBind]
    rfl
  · rw [hfr4 "slug" (by decide), ← hr3, hfr3 "slug" (by decide), ← hr2,
      hfr2 "slug" (by decide)]
    exact hs
  · refine ⟨n2, ?_, by rw [← bne_iff_ne]; exact hn2ne⟩
    rw [hfr4 "name" (by decide), ← hr3, hfr3 "name" (by decide), ← hr2]
    exact hn2
  · refine ⟨t3, ?_, hin3⟩
    rw [hfr4 "roleDefinition" (by decide), ← hr3]
    exact hrd3

/-- A clean record with a fresh slug is processed in non-fix mode without
errors, without throwing, and without being copied into a different fixed
record. -/
theorem processMode_clean (c : String → Bool) (m : JValue) (s : String)
    (i : Nat) (slugs : List String) (hcl : CleanRecord c m s)
    (hnot : slugs.contains s = false) :
    ∃ w, processMode m i false c slugs = .ok ([], w, slugs ++ [s], m) := by
  obtain ⟨hs, hok, ⟨n, hn, hnne⟩, ⟨t, ht, hinc⟩, lg, gr, hg, hvg, hge⟩ := hcl
  obtain ⟨fs, hm⟩ := getProp_some_obj hs
  subst hm
  have h1 : checkSlug (.obj fs) i false slugs (.obj fs)
      = .ok ([], slugs ++ [s], .obj fs) :=
    checkSlug_valid_eq (.obj fs) i false slugs (.obj fs) s hs hok hnot
  have h2 : checkName (.obj fs) i false (.obj fs) = .ok ([], .obj fs) :=
    checkName_present_eq (.obj fs) i false (.obj fs)
      (by rw [hn, truthyO_some, truthy_str, bne_iff_ne]; exact hnne)
  have h3 : checkRoleDef (.obj fs) i false (.obj fs) = .ok ([], [], .obj fs) :=
    checkRoleDef_phrase_eq (.obj fs) i false (.obj fs) t ht hinc
  have h4 : checkGroups (.obj fs) i false c (.obj fs)
      = .ok ([], gr.warnings, .obj fs) :=
    checkGroups_cleanlist_eq (.obj fs) i false c (.obj fs) lg gr hg hvg hge
  refine ⟨gr.warnings, ?_⟩
  simp only [processMode]
  rw [if_neg (by simp [isNullB]), h1, okBind, h2, okBind, h3, okBind,
    h4, okBind]
  rfl

/-- A string absent from both parts is absent from their concatenation. -/
theorem contains_append_false (l1 l2 : List String) (t : String)
    (h1 : l1.contains t = false) (h2 : l2.contains t = false) :
    (l1 ++ l2).contains t = false := by
  cases hc : (l1 ++ l2).contains t with
  | false => rfl
  | true =>
      simp only [List.contains_iff_exists_mem_beq] at hc
      obtain ⟨a, ha, hb⟩ := hc
      rcases List.mem_append.mp ha with ha1 | ha2
      · have : l1.contains t = true := by
          simp only [List.contains_iff_exists_mem_beq]
          exact ⟨a, ha1, hb⟩
        rw [this] at h1; exact absurd h1 (by simp)
      · have : l2.contains t = true := by
          simp only [List.contains_iff_exists_mem_beq]
          exact ⟨a, ha2, hb⟩
        rw [this] at h2; exact absurd h2 (by simp)

/-- The fix run over a list of fixable records with pairwise-distinct
fresh slugs completes without throwing and accumulates clean fixed
records, one per input record. -/
theorem processModes_fixrun (c : String → Bool) :
    ∀ (l : List JValue) (ss : List String) (i : Nat) (slugs : List String)
      (errs : List VError) (warns : List VWarn) (he : Bool)
      (acc : List JValue),
      List.Forall₂ (FixableRecord c) l ss → ss.Nodup →
      (∀ s ∈ ss, slugs.contains s = false) →
      ∃ E W H fl, processModes true c i slugs errs warns he acc l
          = .ok (E, W, H, acc ++ fl) ∧
        List.Forall₂ (CleanRecord c) fl ss := by
  intro l
  induction l with
  | nil =>
      intro ss i slugs errs warns he acc hfa _ _
      cases hfa
      exact ⟨errs, warns, he, [], by simp [processModes], List.Forall₂.nil⟩
  | cons m rest ih =>
      intro ss i slugs errs warns he acc hfa hnd hdisj
      cases hfa with
      | cons hf hfa' =>
          rename_i s sr
          have hnot : slugs.contains s = false :=
            hdisj s (List.mem_cons_self s sr)
          obtain ⟨e, w, fr, heq, hclean⟩ :=
            processMode_fixable c m s i slugs hf hnot
          have hnd' : sr.Nodup := (List.nodup_cons.mp hnd).2
          have hsn : s ∉ sr := (List.nodup_cons.mp hnd).1
          have hdisj' : ∀ t ∈ sr, (slugs ++ [s]).contains t = false := by
            intro t htm
            refine contains_append_false slugs [s] t
              (hdisj t (List.mem_cons_of_mem s htm)) ?_
            have htne : t ≠ s := fun hts => hsn (hts ▸ htm)
            simp [htne]
          obtain ⟨E, W, H, fl, heq2, hclean2⟩ :=
            ih sr (i + 1) (slugs ++ [s]) (errs ++ e) (warns ++ w)
              (he || !e.isEmpty) (acc ++ [fr]) hfa' hnd' hdisj'
          refine ⟨E, W, H, fr :: fl, ?_, List.Forall₂.cons hclean hclean2⟩
          simp only [processModes]
          rw [heq, okBind, heq2]
          simp

/-- The plain validation run over a list of clean records with
pairwise-distinct fresh slugs completes with no errors, never sets the
error flag, and copies each record unchanged into the fixed accumulator. -/
theorem processModes_cleanrun (c : String → Bool) :
    ∀ (l : List JValue) (ss : List String) (i : Nat) (slugs : List String)
      (warns : List VWarn) (acc : List JValue),
      List.Forall₂ (CleanRecord c) l ss → ss.Nodup →
      (∀ s ∈ ss, slugs.contains s = false) →
      ∃ W, processModes false c i slugs [] warns false acc l
          = .ok ([], W, false, acc ++ l) := by
  intro l
  induction l with
  | nil =>
      intro ss i slugs warns acc hfa _ _
      exact ⟨warns, by simp [processModes]⟩
  | cons m rest ih =>
      intro ss i slugs warns acc hfa hnd hdisj
      cases hfa with
      | cons hf hfa' =>
          rename_i s sr
          have hnot : slugs.contains s = false :=
            hdisj s (List.mem_cons_self s sr)
          obtain ⟨w, heq⟩ := processMode_clean c m s i slugs hf hnot
          have hnd' : sr.Nodup := (List.nodup_cons.mp hnd).2
          have hsn : s ∉ sr := (List.nodup_cons.mp hnd).1
          have hdisj' : ∀ t ∈ sr, (slugs ++ [s]).contains t = false := by
            intro t htm
            refine contains_append_false slugs [s] t
              (hdisj t (List.mem_cons_of_mem s htm)) ?_
            have htne : t ≠ s := fun hts => hsn (hts ▸ htm)
            simp [htne]
          obtain ⟨W, heq2⟩ :=
            ih sr (i + 1) (slugs ++ [s]) (warns ++ w) (acc ++ [m]) hfa' hnd'
              hdisj'
          refine ⟨W, ?_⟩
          simp only [processModes]
          rw [heq, okBind]
          simp only [List.nil_append, List.append_nil, List.isEmpty_nil,
            Bool.not_true, Bool.or_false]
          rw [heq2]
          simp

/-- A document holding an array under `customModes` passes the structural
stage with no structural diagnostics, selecting that array. -/
theorem structuralStage_customModes (v : JValue) (l : List JValue)
    (hcm : v.getProp "customModes" = some (.arr l)) :
    structuralStage v = ([], l) := by
  simp only [structuralStage, hcm]
  rw [if_neg (by simp [truthyO_some, truthy_arr]),
    if_neg (by simp [truthyO_some, truthy_arr])]

/-- Revalidating a synthesized document whose records are all clean with
distinct slugs yields a result with no errors and a valid verdict. -/
theorem validateRoomodes_cleandoc (c : String → Bool) (fl : List JValue)
    (ss : List String) (hfa : List.Forall₂ (CleanRecord c) fl ss)
    (hnd : ss.Nodup) (hne : fl ≠ []) :
    ∃ r2, validateRoomodes (.obj [("customModes", .arr fl)]) false c
        = .ok r2 ∧ r2.errors = [] ∧ r2.isValid = true := by
  have hstruct : structuralStage (.obj [("customModes", .arr fl)])
      = ([], fl) :=
    structuralStage_customModes _ fl (by rw [getProp_obj]; rfl)
  have hle : fl.isEmpty = false := by
    cases fl with
    | nil => exact absurd rfl hne
    | cons a b => rfl
  obtain ⟨W, hpm⟩ := processModes_cleanrun c fl ss 0 [] [] [] hfa hnd
    (fun s _ => rfl)
  refine ⟨VResult.mk true false [] W none, ?_, rfl, rfl⟩
  simp only [validateRoomodes]
  rw [if_neg (by simp [isNullB]), hstruct]
  simp only [List.isEmpty_nil, Bool.not_true]
  rw [if_neg (by rw [hle]; simp)]
  rw [hpm, okBind]
  rw [if_neg (by simp)]
  rw [if_neg (by simp)]

/-- Through the record loop, the `hasErrors` flag stays synchronized with
nonemptiness of the accumulated error transcript. -/
theorem processModes_sync (fm : Bool) (c : String → Bool) :
    ∀ (l : List JValue) (i : Nat) (slugs : List String) (errs : List VError)
      (warns : List VWarn) (he : Bool) (acc : List JValue)
      (E : List VError) (W : List VWarn) (H : Bool) (A : List JValue),
      processModes fm c i slugs errs warns he acc l = .ok (E, W, H, A) →
      he = !errs.isEmpty → H = !E.isEmpty := by
  intro l
  induction l with
  | nil =>
      intro i slugs errs warns he acc E W H A h hinv
      have h2 : ((errs, warns, he, acc) : List VError × List VWarn × Bool × List JValue)
          = (E, W, H, A) := by simpa [processModes] using h
      cases h2
      exact hinv
  | cons m rest ih =>
      intro i slugs errs warns he acc E W H A h hinv
      simp only [processModes] at h
      cases hm : processMode m i fm c slugs with
      | error e => rw [hm, errBind] at h; exact absurd h (by simp)
      | ok t =>
          obtain ⟨e, w, slugs1, fr⟩ := t
          rw [hm, okBind] at h
          refine ih (i + 1) slugs1 (errs ++ e) (warns ++ w) (he || !e.isEmpty)
            (acc ++ [fr]) E W H A h ?_
          rw [hinv]
          cases errs <;> simp [List.isEmpty]

/-- The result record of a completed validation keeps `hasErrors` equal to
nonemptiness of the error transcript, and `isValid` equal to its negation. -/
theorem validateRoomodes_sync (v : JValue) (fm : Bool) (c : String → Bool)
    (r : VResult) (h : validateRoomodes v fm c = .ok r) :
    r.hasErrors = !r.errors.isEmpty ∧ r.isValid = !r.hasErrors := by
  unfold validateRoomodes at h
  cases hn : isNullB v with
  | true => rw [hn] at h; exact absurd h (by simp)
  | false =>
      rw [hn] at h
      simp only [Bool.false_eq_true, if_false] at h
      cases hs : structuralStage v with
      | mk errs0 md =>
          rw [hs] at h
          simp only [] at h
          split at h
          case isTrue hmd =>
              cases hp : processModes fm c 0 [] (errs0 ++ [VError.noModes]) [] true [] md with
              | error e => rw [hp, errBind] at h; exact absurd h (by simp)
              | ok t =>
                  obtain ⟨E, W, H, A⟩ := t
                  rw [hp, okBind] at h
                  have hH : H = !E.isEmpty :=
                    processModes_sync fm c md 0 [] (errs0 ++ [VError.noModes]) [] true [] E W H A hp
                      (by cases errs0 <;> simp [List.isEmpty])
                  split at h
                  case isTrue hHt =>
                      have hHt2 : H = true := hHt
                      simp only [Except.ok.injEq] at h
                      subst h
                      refine ⟨?_, rfl⟩
                      show (true : Bool) = !E.isEmpty
                      rw [← hH, hHt2]
                  case isFalse hHf =>
                      have hHfalse : H = false := by
                        cases H with
                        | true => exact absurd rfl hHf
                        | false => rfl
                      split at h <;>
                        · simp only [Except.ok.injEq] at h
                          subst h
                          refine ⟨?_, rfl⟩
                          show (false : Bool) = !E.isEmpty
                          rw [← hH, hHfalse]
          case isFalse hmd =>
              cases hp : processModes fm c 0 [] errs0 [] (!errs0.isEmpty) [] md with
              | error e => rw [hp, errBind] at h; exact absurd h (by simp)
              | ok t =>
                  obtain ⟨E, W, H, A⟩ := t
                  rw [hp, okBind] at h
                  have hH : H = !E.isEmpty :=
                    processModes_sync fm c md 0 [] errs0 [] (!errs0.isEmpty) [] E W H A hp rfl
                  split at h
                  case isTrue hHt =>
                      have hHt2 : H = true := hHt
                      simp only [Except.ok.injEq] at h
                      subst h
                      refine ⟨?_, rfl⟩
                      show (true : Bool) = !E.isEmpty
                      rw [← hH, hHt2]
                  case isFalse hHf =>
                      have hHfalse : H = false := by
                        cases H with
                        | true => exact absurd rfl hHf
                        | false => rfl
                      split at h <;>
                        · simp only [Except.ok.injEq] at h
                          subst h
                          refine ⟨?_, rfl⟩
                          show (false : Bool) = !E.isEmpty
                          rw [← hH, hHfalse]

end Lemmas

section Claims

/-- C10: for every document whose records container key `customModes` is
present and holds an empty array, validation emits the no-modes error (and
nothing else, since no record-level check runs), judges the document
invalid, and the process exits with code 1, in either mode. -/
theorem c10_empty_container_invalid (v : JValue) (fm : Bool) (c : String → Bool)
    (h : v.getProp "customModes" = some (.arr [])) :
    validateRoomodes v fm c = .ok
      { isValid := false, hasErrors := true, errors := [.noModes], warnings := [],
        fixedContent := if fm then some (.obj [("customModes", .arr [])]) else none } ∧
    exitCode (some v) fm c = .ok 1 := by
  obtain ⟨fs, rfl⟩ := getProp_some_obj h
  have hmain : validateRoomodes (.obj fs) fm c = .ok
      { isValid := false, hasErrors := true, errors := [.noModes], warnings := [],
        fixedContent := if fm then some (.obj [("customModes", .arr [])]) else none } := by
    simp only [validateRoomodes, isNullB, structuralStage, h, truthyO, truthy,
      Bool.false_and, Bool.and_false, Bool.not_true, Bool.false_eq_true,
      if_false, processModes, okBind]
    simp [processModes, okBind]
  refine ⟨hmain, ?_⟩
  simp only [exitCode, hmain, Except.map_ok]
  rfl

/-- C10 witness: the concrete document with an empty `customModes` array. -/
theorem c10_witness :
    validateRoomodes (.obj [("customModes", .arr [])]) false regexAlwaysCompiles = .ok
      { isValid := false, hasErrors := true, errors := [.noModes], warnings := [],
        fixedContent := none } ∧
    exitCode (some (.obj [("customModes", .arr [])])) false regexAlwaysCompiles = .ok 1 := by
  have := c10_empty_container_invalid (.obj [("customModes", .arr [])]) false
    regexAlwaysCompiles rfl
  simpa using this

/-- C4: validation does not always run to completion collecting diagnostics;
it throws a `TypeError`.  First input: a record whose capability entry is
the two-element tuple `["read", null]` (`typeof null === 'object'` passes
the shape test and the `fileRegex` read throws).  Second input: a record
entry that is the non-object `null` (the progress line reads its `name`).
Both evaluations are in plain validate mode, without `--fix`. -/
theorem c4_validation_throws :
    validateRoomodes (.obj [("customModes", .arr [
      .obj [("slug", .str "a"), ("name", .str "A"),
            ("roleDefinition", .str "You are Roo, a."),
            ("groups", .arr [.arr [.str "read", .null]])]])]) false regexAlwaysCompiles
      = .error "TypeError: cannot read fileRegex of null" ∧
    validateRoomodes (.obj [("customModes", .arr [.null])]) false regexAlwaysCompiles
      = .error "TypeError: cannot read name of null" := by
  exact ⟨rfl, rfl⟩

/-- C7: for every record capability tuple (any tag value, any description
value, either mode) whose restriction pattern is the two-character string
backslash-period, group validation reports the escaping error; with the
three-character doubled-backslash-period pattern it reports no escaping
error.  The oracle hypotheses record that both patterns compile under the
JavaScript regex engine. -/
theorem c7_escape_check (gn d : JValue) (fm : Bool) (c : String → Bool)
    (h1 : c "\\." = true) (h2 : c "\\\\." = true) (gr1 gr2 : GroupsResult)
    (e1 : validateGroups [.arr [gn, .obj [("fileRegex", .str "\\."),
            ("description", d)]]] fm c = .ok gr1)
    (e2 : validateGroups [.arr [gn, .obj [("fileRegex", .str "\\\\."),
            ("description", d)]]] fm c = .ok gr2) :
    VError.invalidEscapingError 0 "\\." ∈ gr1.errors ∧
    (∀ j p, VError.invalidEscapingError j p ∉ gr2.errors) := by
  have hve : invalidEscaping "\\." = true := by decide
  have hve2 : invalidEscaping "\\\\." = false := by decide
  have htr : truthy (JValue.str "\\.") = true := rfl
  have htr2 : truthy (JValue.str "\\\\.") = true := rfl
  have hfr1 : (JValue.obj [("fileRegex", JValue.str "\\."), ("description", d)]).getProp
      "fileRegex" = some (.str "\\.") := rfl
  have hfr2 : (JValue.obj [("fileRegex", JValue.str "\\\\."), ("description", d)]).getProp
      "fileRegex" = some (.str "\\\\.") := rfl
  have hde1 : (JValue.obj [("fileRegex", JValue.str "\\."), ("description", d)]).getProp
      "description" = some d := rfl
  have hde2 : (JValue.obj [("fileRegex", JValue.str "\\\\."), ("description", d)]).getProp
      "description" = some d := rfl
  cases fm <;> cases hgn : isValidToolGroup gn <;> cases hd : truthy d <;>
    simp only [validateGroups, groupsLoop, processGroup, hfr1, hfr2, hde1, hde2,
      hgn, hd, h1, h2, hve, hve2, htr, htr2, jsTypeofObject, isNullB, jsToString, truthyO,
      Bool.not_true, Bool.not_false, if_true, if_false, Bool.false_eq_true,
      Bool.true_eq_false, okBind, errBind, List.nil_append, List.append_nil,
      Except.ok.injEq] at e1 e2 <;>
    subst e1 <;> subst e2 <;>
    refine ⟨by simp, ?_⟩ <;>
    intro j p hmem <;> simp at hmem

/-- C7 witness: the tag `read` and description `d`, validate mode, with the
always-compiling oracle (both patterns genuinely compile under JavaScript). -/
theorem c7_witness :
    VError.invalidEscapingError 0 "\\." ∈
      ({ errors := [.invalidEscapingError 0 "\\."], warnings := [.escapeDoubling],
         fixedGroups := [] } : GroupsResult).errors ∧
    (∀ j p, VError.invalidEscapingError j p ∉
      ({ errors := [], warnings := [], fixedGroups := [] } : GroupsResult).errors) :=
  c7_escape_check (.str "read") (.str "d") false regexAlwaysCompiles rfl rfl _ _ rfl rfl

/-- C1 counterexample: for the document whose `customModes` array is empty,
fix mode produces a fixed document equal to the input, and validating that
fixed document still reports the no-modes error, so
`validate(fix(D)).errors` is not empty. -/
theorem c1_counterexample :
    (validateRoomodes (.obj [("customModes", .arr [])]) true regexAlwaysCompiles).map
        (·.fixedContent) = .ok (some (.obj [("customModes", .arr [])])) ∧
    (validateRoomodes (.obj [("customModes", .arr [])]) false regexAlwaysCompiles).map
        (·.errors) = .ok [.noModes] ∧
    ([VError.noModes] ≠ ([] : List VError)) := by
  refine ⟨rfl, rfl, by simp⟩

/-- C2 counterexample: the flagged pattern backslash-period is "fixed" to
itself, not to the doubled-backslash form: the replacement
`'\x5c$1'` for a match of backslash-capture is the matched text itself. -/
theorem c2_counterexample :
    (validateGroups [.arr [.str "read", .obj [("fileRegex", .str "\\."),
        ("description", .str "d")]]] true regexAlwaysCompiles).map
        (fun gr => gr.fixedGroups.map (fun g => asStr (restrictionPattern g)))
      = .ok [some "\\."] ∧
    ("\\." : String) ≠ "\\\\." := by
  refine ⟨rfl, by decide⟩

/-- C5 counterexample: in fix mode, the first record produces zero errors
(every reported error carries index 1) and only the lead-in warning, yet
its roleDefinition in the fixed document is rewritten from `a helper.` to
`You are Roo, a helper.`, so the zero-error record is not left identical. -/
theorem c5_counterexample :
    (validateRoomodes (.obj [("customModes", .arr [
        .obj [("slug", .str "a"), ("name", .str "A"),
              ("roleDefinition", .str "a helper."), ("groups", .arr [.str "read"])],
        .obj [("slug", .str "b"),
              ("roleDefinition", .str "You are Roo, b."),
              ("groups", .arr [.str "read"])]])]) true regexAlwaysCompiles).map
        (fun r => (r.errors, r.warnings,
          (fixedModesOf r).map (fun l => l.map (fun m => asStr (m.getProp "roleDefinition")))))
      = .ok ([.missingName 1], [.roleDefinitionLeadIn 0],
          some [some "You are Roo, a helper.", some "You are Roo, b."]) ∧
    ("You are Roo, a helper." : String) ≠ "a helper." := by
  refine ⟨rfl, by decide⟩

/-- C6 counterexample: the document with slugs `A` and `a` has the first
sanitized to `a` in fix mode, so the fixed document's identifiers are
`a` and `a`: not pairwise distinct. -/
theorem c6_counterexample :
    (validateRoomodes (.obj [("customModes", .arr [
        .obj [("slug", .str "A"), ("name", .str "A"),
              ("roleDefinition", .str "You are Roo, a."), ("groups", .arr [.str "read"])],
        .obj [("slug", .str "a"), ("name", .str "B"),
              ("roleDefinition", .str "You are Roo, b."), ("groups", .arr [.str "read"])]])])
        true regexAlwaysCompiles).map
        (fun r => (fixedModesOf r).map (fun l => l.map slugOf))
      = .ok (some [some "a", some "a"]) := by
  rfl

/-- C9 counterexample: the first record's capability list is the empty
array, which produces no error, so the fix leaves it empty: an empty
capability list survives fixing in the fixed document (the second record
only forces the fixed document to be emitted). -/
theorem c9_counterexample :
    (validateRoomodes (.obj [("customModes", .arr [
        .obj [("slug", .str "a"), ("name", .str "A"),
              ("roleDefinition", .str "You are Roo, a."), ("groups", .arr [])],
        .obj [("slug", .str "b"),
              ("roleDefinition", .str "You are Roo, b."),
              ("groups", .arr [.str "read"])]])]) true regexAlwaysCompiles).map
        (fun r => (fixedModesOf r).map (fun l => l.map (fun m => m.getProp "groups")))
      = .ok (some [some (.arr []), some (.arr [.str "read"])]) := by
  rfl

/-- C3: whenever the process reaches its exit call, the exit code is 0
precisely when the input parsed successfully and the pre-fix validation
transcript contains no errors — for either value of the fix flag, and
independently of warnings or of whether fixed content was produced. -/
theorem c3_exit_code (p : Option JValue) (fm : Bool) (c : String → Bool)
    (n : Nat) (h : exitCode p fm c = .ok n) :
    n = 0 ↔ ∃ v r, p = some v ∧ validateRoomodes v fm c = .ok r ∧ r.errors = [] := by
  cases p with
  | none =>
      simp only [exitCode, Except.ok.injEq] at h
      subst h
      constructor
      · intro h10; exact absurd h10 (by simp)
      · rintro ⟨v, r, hv, _, _⟩; exact absurd hv (by simp)
  | some v =>
      simp only [exitCode] at h
      cases hv : validateRoomodes v fm c with
      | error e => rw [hv] at h; exact absurd h (by simp [Except.map])
      | ok r =>
          rw [hv] at h
          simp only [Except.map, Except.ok.injEq] at h
          subst h
          obtain ⟨hsync, hvalid⟩ := validateRoomodes_sync v fm c r hv
          constructor
          · intro h0
            refine ⟨v, r, rfl, hv, ?_⟩
            cases hval : r.isValid with
            | false => rw [hval] at h0; exact absurd h0 (by simp)
            | true =>
                rw [hval] at hvalid
                have : r.errors.isEmpty = true := by
                  cases he : r.errors.isEmpty with
                  | true => rfl
                  | false => rw [he] at hsync; rw [hsync] at hvalid; simp at hvalid
                exact List.isEmpty_iff.mp this
          · rintro ⟨v2, r2, hv2, hvr2, herr⟩
            have hv2e : v2 = v := by injection hv2.symm
            subst hv2e
            rw [hv] at hvr2
            have hr2 : r2 = r := by injection hvr2 with hh; exact hh.symm
            subst hr2
            rw [herr] at hsync
            simp only [List.isEmpty_nil, Bool.not_true] at hsync
            rw [hsync] at hvalid
            simp only [Bool.not_false] at hvalid
            rw [hvalid]
            simp

/-- C3 witness: a concretely valid single-record document exits with 0, and
the theorem recovers the empty pre-fix error transcript from that exit
code. -/
theorem c3_witness :
    ∃ v r, (some (JValue.obj [("customModes", .arr [
        .obj [("slug", .str "a"), ("name", .str "A"),
              ("roleDefinition", .str "You are Roo, a."),
              ("groups", .arr [.str "read"])]])]) : Option JValue) = some v ∧
      validateRoomodes v false regexAlwaysCompiles = .ok r ∧ r.errors = [] :=
  (c3_exit_code (some (JValue.obj [("customModes", .arr [
      .obj [("slug", .str "a"), ("name", .str "A"),
            ("roleDefinition", .str "You are Roo, a."),
            ("groups", .arr [.str "read"])]])])) false regexAlwaysCompiles 0 rfl).mp rfl

/-- C2 amended: for every capability tuple whose restriction object carries
a truthy string pattern that compiles and is flagged by the escaping check,
fix mode reports the escaping error but emits the pattern unchanged — the
re-escaping substitution is the identity, never a doubling. -/
theorem c2_flagged_pattern_fixed_to_itself (gn : JValue)
    (rfs : List (String × JValue)) (s : String) (c : String → Bool)
    (gr : GroupsResult)
    (hfr : (JValue.obj rfs).getProp "fileRegex" = some (.str s))
    (hs : s ≠ "") (hc : c s = true) (he : invalidEscaping s = true)
    (hval : validateGroups [.arr [gn, .obj rfs]] true c = .ok gr) :
    VError.invalidEscapingError 0 s ∈ gr.errors ∧
    gr.fixedGroups.map (fun g => asStr (restrictionPattern g)) = [some s] := by
  have hsne : (s != "") = true := bne_iff_ne.mpr hs
  have hread : (("read" : String) != "") = true := by decide
  have hto : jsTypeofObject (.obj rfs) = true := rfl
  have hnn : isNullB (.obj rfs) = false := rfl
  cases hgn : isValidToolGroup gn <;>
  cases hdt : truthyO ((JValue.obj rfs).getProp "description") <;>
    simp only [validateGroups, groupsLoop, processGroup, hfr, hgn, hdt, hto, hnn,
      hsne, hread, hc, he, jsToString, Bool.not_true, Bool.not_false,
      if_true, if_false, Bool.false_eq_true, Bool.true_eq_false,
      Bool.true_and, Bool.and_true, Bool.false_and, Bool.and_false,
      okBind, errBind, List.nil_append, List.append_nil, List.singleton_append,
      List.cons_append, List.isEmpty_cons, Except.ok.injEq,
      truthy_obj, truthy_str, truthyO_some, truthyO_none,
      validToolGroup_truthy gn] at hval <;>
  subst hval <;>
    refine ⟨by simp, ?_⟩ <;>
    simp [restrictionPattern, getProp_obj, List.find?_cons, asStr, fixJsonEscaping_id,
      hgn, validToolGroup_truthy gn]

/-- C2 amended witness: the concrete flagged pattern backslash-period with
tag `read` and description `d`. -/
theorem c2_witness :
    VError.invalidEscapingError 0 "\\." ∈
      ({ errors := [.invalidEscapingError 0 "\\."], warnings := [.escapeDoubling],
         fixedGroups := [.arr [.str "read", .obj [("fileRegex", .str "\\."),
           ("description", .str "d")]]] } : GroupsResult).errors ∧
    ({ errors := [.invalidEscapingError 0 "\\."], warnings := [.escapeDoubling],
       fixedGroups := [.arr [.str "read", .obj [("fileRegex", .str "\\."),
         ("description", .str "d")]]] } : GroupsResult).fixedGroups.map
        (fun g => asStr (restrictionPattern g)) = [some "\\."] :=
  c2_flagged_pattern_fixed_to_itself (.str "read")
    [("fileRegex", .str "\\."), ("description", .str "d")] "\\."
    regexAlwaysCompiles _ rfl (by decide) rfl (by decide) rfl

/-- C9 amended: in fix mode, for every record whose capability list is a
nonempty array (and whose processing completes), the record in the fixed
document has a nonempty capability list: either the original list stands
(no group errors) or it is replaced by the group validator's fixed list,
which always keeps at least the default read capability.  (For an
originally empty list no error is raised, the fixed list is discarded, and
the empty list survives.) -/
theorem c9_nonempty_after_fix (m : JValue) (i : Nat) (c : String → Bool)
    (slugs : List String) (e : List VError) (w : List VWarn)
    (sl2 : List String) (fr : JValue) (lg : List JValue)
    (h : processMode m i true c slugs = .ok (e, w, sl2, fr))
    (hg : m.getProp "groups" = some (.arr lg)) (hne : lg ≠ []) :
    ∃ lg2, fr.getProp "groups" = some (.arr lg2) ∧ lg2 ≠ [] := by
  obtain ⟨fs, rfl⟩ := getProp_some_obj hg
  simp only [processMode] at h
  rw [if_neg (by simp [isNullB])] at h
  cases h1 : checkSlug (.obj fs) i true slugs (.obj fs) with
  | error s => rw [h1, errBind] at h; exact absurd h (by simp)
  | ok t1 =>
  obtain ⟨e1, sl1, r1⟩ := t1
  rw [h1, okBind] at h
  cases h2 : checkName (.obj fs) i true r1 with
  | error s => rw [h2, errBind] at h; exact absurd h (by simp)
  | ok t2 =>
  obtain ⟨e2, r2⟩ := t2
  rw [h2, okBind] at h
  cases h3 : checkRoleDef (.obj fs) i true r2 with
  | error s => rw [h3, errBind] at h; exact absurd h (by simp)
  | ok t3 =>
  obtain ⟨e3, w3, r3⟩ := t3
  rw [h3, okBind] at h
  cases h4 : checkGroups (.obj fs) i true c r3 with
  | error s => rw [h4, errBind] at h; exact absurd h (by simp)
  | ok t4 =>
  obtain ⟨e4, w4, r4⟩ := t4
  rw [h4, okBind] at h
  simp only [Except.ok.injEq, Prod.mk.injEq] at h
  obtain ⟨-, -, -, hfr⟩ := h
  subst hfr
  obtain ⟨f1, o1⟩ := checkSlug_frame _ _ _ _ _ _ _ _ h1
  obtain ⟨f2, o2⟩ := checkName_frame _ _ _ _ _ _ h2
  obtain ⟨f3, o3⟩ := checkRoleDef_frame _ _ _ _ _ _ _ h3
  have hg3 : r3.getProp "groups" = some (.arr lg) := by
    rw [f3 "groups" (by decide), f2 "groups" (by decide), f1 "groups" (by decide)]
    exact hg
  have hobj3 : ∃ fs3, r3 = .obj fs3 := by
    obtain ⟨fs1, e1h⟩ := o1 fs rfl
    obtain ⟨fs2, e2h⟩ := o2 fs1 e1h
    exact o3 fs2 e2h
  simp only [checkGroups, hg] at h4
  rw [if_neg (by simp [truthyO, truthy])] at h4
  cases hvg : validateGroups lg true c with
  | error s => rw [hvg, errBind] at h4; exact absurd h4 (by simp)
  | ok gr =>
      rw [hvg, okBind] at h4
      cases hge : gr.errors.isEmpty with
      | true =>
          rw [hge, if_pos rfl] at h4
          simp only [Except.ok.injEq, Prod.mk.injEq] at h4
          obtain ⟨-, -, hr4⟩ := h4
          subst hr4
          exact ⟨lg, hg3, hne⟩
      | false =>
          rw [hge] at h4
          rw [if_neg (by simp)] at h4
          simp only [Except.ok.injEq, Prod.mk.injEq] at h4
          obtain ⟨-, -, hr4⟩ := h4
          subst hr4
          obtain ⟨fs3, hfs3⟩ := hobj3
          subst hfs3
          refine ⟨gr.fixedGroups, ?_, validateGroups_fix_nonempty lg c gr hvg⟩
          exact setProp_getProp_same fs3 "groups" (.arr gr.fixedGroups)

/-- C9 amended witness: a record whose single capability `bogus` is invalid
and dropped ends up with exactly the default read capability, a nonempty
list. -/
theorem c9_witness :
    ∃ lg2, (JValue.obj [("slug", .str "a"), ("name", .str "A"),
        ("roleDefinition", .str "You are Roo, a."),
        ("groups", .arr [.str "read"])]).getProp "groups"
        = some (.arr lg2) ∧ lg2 ≠ [] :=
  c9_nonempty_after_fix
    (.obj [("slug", .str "a"), ("name", .str "A"),
           ("roleDefinition", .str "You are Roo, a."),
           ("groups", .arr [.str "bogus"])])
    0 regexAlwaysCompiles []
    [.invalidToolGroup 0 "bogus"] [] ["a"]
    (.obj [("slug", .str "a"), ("name", .str "A"),
           ("roleDefinition", .str "You are Roo, a."),
           ("groups", .arr [.str "read"])])
    [.str "bogus"] rfl rfl (by simp)

/-- C5 amended: in fix mode, a record that produced zero errors AND whose
roleDefinition contains the lead-in phrase is identical in the fixed
document; the zero-error guarantee alone does not suffice, because a
warning-only record lacking the phrase gets the phrase prepended. -/
theorem c5_zero_error_phrase_record_unchanged (m : JValue) (i : Nat)
    (c : String → Bool) (slugs : List String) (w : List VWarn)
    (sl2 : List String) (fr : JValue) (s : String)
    (h : processMode m i true c slugs = .ok ([], w, sl2, fr))
    (hrd : m.getProp "roleDefinition" = some (.str s))
    (hph : strIncludes s "You are Roo" = true) :
    fr = m := by
  obtain ⟨fs, rfl⟩ := getProp_some_obj hrd
  simp only [processMode] at h
  rw [if_neg (by simp [isNullB])] at h
  cases h1 : checkSlug (.obj fs) i true slugs (.obj fs) with
  | error s2 => rw [h1, errBind] at h; exact absurd h (by simp)
  | ok t1 =>
  obtain ⟨e1, sl1, r1⟩ := t1
  rw [h1, okBind] at h
  cases h2 : checkName (.obj fs) i true r1 with
  | error s2 => rw [h2, errBind] at h; exact absurd h (by simp)
  | ok t2 =>
  obtain ⟨e2, r2⟩ := t2
  rw [h2, okBind] at h
  cases h3 : checkRoleDef (.obj fs) i true r2 with
  | error s2 => rw [h3, errBind] at h; exact absurd h (by simp)
  | ok t3 =>
  obtain ⟨e3, w3, r3⟩ := t3
  rw [h3, okBind] at h
  cases h4 : checkGroups (.obj fs) i true c r3 with
  | error s2 => rw [h4, errBind] at h; exact absurd h (by simp)
  | ok t4 =>
  obtain ⟨e4, w4, r4⟩ := t4
  rw [h4, okBind] at h
  simp only [Except.ok.injEq, Prod.mk.injEq] at h
  obtain ⟨hE, -, -, hfr⟩ := h
  simp only [List.append_eq_nil] at hE
  obtain ⟨⟨⟨he1, he2⟩, he3⟩, he4⟩ := hE
  subst he1; subst he2; subst he3; subst he4
  have hr1 : r1 = .obj fs := checkSlug_noerror _ _ _ _ _ _ _ h1
  have hr2 : r2 = r1 := checkName_noerror _ _ _ _ _ h2
  have hr3 : r3 = r2 := by
    rw [checkRoleDef_phrase_eq (.obj fs) i true r2 s hrd hph] at h3
    simp only [Except.ok.injEq, Prod.mk.injEq] at h3
    exact h3.2.2.symm
  have hr4 : r4 = r3 := checkGroups_noerror _ _ _ _ _ _ _ h4
  rw [← hfr, hr4, hr3, hr2, hr1]

/-- C5 amended witness: a concretely clean record (lead-in phrase present)
is returned unchanged by fix-mode processing. -/
theorem c5_witness :
    (JValue.obj [("slug", .str "a"), ("name", .str "A"),
        ("roleDefinition", .str "You are Roo, ok."),
        ("groups", .arr [.str "read"])]) =
    (JValue.obj [("slug", .str "a"), ("name", .str "A"),
        ("roleDefinition", .str "You are Roo, ok."),
        ("groups", .arr [.str "read"])]) :=
  c5_zero_error_phrase_record_unchanged
    (.obj [("slug", .str "a"), ("name", .str "A"),
           ("roleDefinition", .str "You are Roo, ok."),
           ("groups", .arr [.str "read"])])
    0 regexAlwaysCompiles [] [] ["a"]
    (.obj [("slug", .str "a"), ("name", .str "A"),
           ("roleDefinition", .str "You are Roo, ok."),
           ("groups", .arr [.str "read"])])
    "You are Roo, ok." rfl rfl (by decide)

/-- C6 amended: whenever two records of the processed records list carry
the same slug string, a completed validation reports at least one error,
in either mode.  (The claim's second half — post-fix identifiers pairwise
distinct — is false: a sanitized or suffixed slug can collide with another
record's slug.) -/
theorem c6_shared_identifier_error (v : JValue) (fm : Bool)
    (c : String → Bool) (r : VResult) (l1 l2 l3 : List JValue)
    (m1 m2 : JValue) (s : String)
    (hsplit : (structuralStage v).2 = l1 ++ m1 :: (l2 ++ m2 :: l3))
    (h1 : m1.getProp "slug" = some (.str s))
    (h2 : m2.getProp "slug" = some (.str s))
    (hr : validateRoomodes v fm c = .ok r) :
    r.errors ≠ [] := by
  simp only [validateRoomodes] at hr
  cases hn : isNullB v with
  | true => rw [hn] at hr; exact absurd hr (by simp)
  | false =>
  rw [hn] at hr
  simp only [Bool.false_eq_true, if_false] at hr
  cases hsq : structuralStage v with
  | mk errs0 md =>
  rw [hsq] at hr hsplit
  simp only [] at hsplit
  subst hsplit
  have hmdne : (l1 ++ m1 :: (l2 ++ m2 :: l3)).isEmpty = false := by
    cases l1 <;> simp [List.isEmpty]
  rw [hmdne] at hr
  simp only [Bool.false_eq_true, if_false] at hr
  have hassoc : l1 ++ m1 :: (l2 ++ m2 :: l3) = (l1 ++ m1 :: l2) ++ m2 :: l3 := by
    simp
  rw [hassoc] at hr
  cases hp : processModes fm c 0 [] errs0 [] (!errs0.isEmpty) []
      ((l1 ++ m1 :: l2) ++ m2 :: l3) with
  | error e2 => rw [hp, errBind] at hr; exact absurd hr (by simp)
  | ok t =>
  obtain ⟨E, W, H, A⟩ := t
  rw [hp, okBind] at hr
  have hEne : E ≠ [] :=
    processModes_dup_error fm c (l1 ++ m1 :: l2) m2 l3 0 [] errs0 []
      (!errs0.isEmpty) [] E W H A s hp h2
      (Or.inr ⟨m1, by simp, h1⟩)
  split at hr
  · simp only [Except.ok.injEq] at hr
    subst hr
    simpa using hEne
  · split at hr <;>
      · simp only [Except.ok.injEq] at hr
        subst hr
        simpa using hEne

/-- C6 amended witness: two concrete records both slugged `x` make
validation fail with the duplicate-slug error. -/
theorem c6_witness :
    ({ isValid := false, hasErrors := true, errors := [.duplicateSlug 1 "x"],
       warnings := [], fixedContent := none } : VResult).errors ≠ [] :=
  c6_shared_identifier_error
    (.obj [("customModes", .arr [
      .obj [("slug", .str "x"), ("name", .str "A"),
            ("roleDefinition", .str "You are Roo, a."),
            ("groups", .arr [.str "read"])],
      .obj [("slug", .str "x"), ("name", .str "B"),
            ("roleDefinition", .str "You are Roo, b."),
            ("groups", .arr [.str "read"])]])])
    false regexAlwaysCompiles
    { isValid := false, hasErrors := true, errors := [.duplicateSlug 1 "x"],
      warnings := [], fixedContent := none }
    [] [] []
    (.obj [("slug", .str "x"), ("name", .str "A"),
           ("roleDefinition", .str "You are Roo, a."),
           ("groups", .arr [.str "read"])])
    (.obj [("slug", .str "x"), ("name", .str "B"),
           ("roleDefinition", .str "You are Roo, b."),
           ("groups", .arr [.str "read"])])
    "x" rfl rfl rfl rfl

/-- C8: for every document whose only top-level records key is the
deprecated alias `modes` (holding a nonempty array) and whose records all
process cleanly (no record-level diagnostics, fixed copies identical), fix
mode reports exactly the structural alias diagnostic — no record-level
error — and the fixed document carries the same records, unchanged, under
the canonical `customModes` key. -/
theorem c8_alias_rename (v : JValue) (c : String → Bool) (l : List JValue)
    (W : List VWarn)
    (hcm : v.getProp "customModes" = none)
    (hmo : v.getProp "modes" = some (.arr l))
    (hne : l ≠ [])
    (hclean : processModes true c 0 [] [VError.usingModesKey] [] true [] l
      = .ok ([VError.usingModesKey], W, true, l)) :
    validateRoomodes v true c = .ok
      { isValid := false, hasErrors := true, errors := [.usingModesKey],
        warnings := W,
        fixedContent := some (.obj [("customModes", .arr l)]) } := by
  obtain ⟨fs, rfl⟩ := getProp_some_obj hmo
  have hie : l.isEmpty = false := by
    cases l with
    | nil => exact absurd rfl hne
    | cons a rest => rfl
  simp only [validateRoomodes, structuralStage, hcm, hmo, truthyO_none,
    truthyO_some, truthy_arr, Bool.not_true, Bool.not_false, Bool.false_and,
    Bool.and_false, Bool.true_and, Bool.and_true, Bool.false_eq_true,
    Bool.true_eq_false, if_false, if_true, hie, isNullB,
    List.isEmpty_cons, List.isEmpty_nil, hclean, okBind]

/-- C8 witness: the spec's Scenario B document, whose single record is
fully valid and copied unchanged under `customModes`. -/
theorem c8_witness :
    validateRoomodes (.obj [("modes", .arr [
      .obj [("slug", .str "ok"), ("name", .str "OK"),
            ("roleDefinition", .str "You are Roo, ok."),
            ("groups", .arr [.str "read"])]])]) true regexAlwaysCompiles = .ok
      { isValid := false, hasErrors := true, errors := [.usingModesKey],
        warnings := [],
        fixedContent := some (.obj [("customModes", .arr [
          .obj [("slug", .str "ok"), ("name", .str "OK"),
                ("roleDefinition", .str "You are Roo, ok."),
                ("groups", .arr [.str "read"])]])]) } :=
  c8_alias_rename
    (.obj [("modes", .arr [
      .obj [("slug", .str "ok"), ("name", .str "OK"),
            ("roleDefinition", .str "You are Roo, ok."),
            ("groups", .arr [.str "read"])]])])
    regexAlwaysCompiles
    [.obj [("slug", .str "ok"), ("name", .str "OK"),
           ("roleDefinition", .str "You are Roo, ok."),
           ("groups", .arr [.str "read"])]]
    [] rfl rfl (by simp) rfl

/-- C1 (amended): restricted idempotence.  For a document whose
`customModes` key holds a nonempty array of fixable records (valid,
pairwise-distinct slugs; name and roleDefinition each falsy or a string;
capabilities absent, a truthy non-array, or an array whose entries produce
no group errors), the fixed document produced by the fix run revalidates
in plain mode with zero errors and a valid verdict.  The unrestricted
claim is refuted by `c1_counterexample`: the empty records array survives
fixing and still yields the no-modes error. -/
theorem c1_fix_idempotent (c : String → Bool) (v : JValue) (l : List JValue)
    (ss : List String) (r : VResult) (F : JValue)
    (hcm : v.getProp "customModes" = some (.arr l)) (hl : l ≠ [])
    (hfa : List.Forall₂ (FixableRecord c) l ss) (hnd : ss.Nodup)
    (hr : validateRoomodes v true c = .ok r)
    (hF : r.fixedContent = some F) :
    ∃ r2, validateRoomodes F false c = .ok r2 ∧ r2.errors = [] ∧
      r2.isValid = true := by
  obtain ⟨fs, hv⟩ := getProp_some_obj hcm
  have hstruct : structuralStage v = ([], l) :=
    structuralStage_customModes v l hcm
  have hle : l.isEmpty = false := by
    cases l with
    | nil => exact absurd rfl hl
    | cons a b => rfl
  obtain ⟨E, W, H, fl, hpm, hclean⟩ :=
    processModes_fixrun c l ss 0 [] [] [] false [] hfa hnd (fun s _ => rfl)
  have hflne : fl ≠ [] := by
    intro h0
    apply hl
    apply List.length_eq_zero.mp
    rw [List.Forall₂.length_eq hfa, ← List.Forall₂.length_eq hclean, h0]
    rfl
  cases H with
  | true =>
      have hrun : validateRoomodes v true c = .ok (VResult.mk false true E W
          (some (.obj [("customModes", .arr ([] ++ fl))]))) := by
        simp only [validateRoomodes]
        rw [if_neg (by rw [hv]; simp [isNullB]), hstruct]
        simp only [List.isEmpty_nil, Bool.not_true]
        rw [if_neg (by rw [hle]; simp)]
        rw [hpm, okBind]
        rw [if_pos rfl]
        rfl
      have heq := hrun.symm.trans hr
      injection heq with h
      subst h
      have hFX : some (JValue.obj [("customModes", JValue.arr ([] ++ fl))])
          = some F := hF
      injection hFX with hFX2
      rw [← hFX2]
      simp only [List.nil_append]
      exact validateRoomodes_cleandoc c fl ss hclean hnd hflne
  | false =>
      have hrun : validateRoomodes v true c
          = .ok (VResult.mk true false E W none) := by
        simp only [validateRoomodes]
        rw [if_neg (by rw [hv]; simp [isNullB]), hstruct]
        simp only [List.isEmpty_nil, Bool.not_true]
        rw [if_neg (by rw [hle]; simp)]
        rw [hpm, okBind]
        rw [if_neg (by simp)]
        rw [if_neg (by rw [hcm]; simp [truthyO_some, truthy_arr])]
      have heq := hrun.symm.trans hr
      injection heq with h
      subst h
      exact absurd hF (by simp)

/-- C1 witness: the single-record document whose record only carries the
slug `a`; the fix run synthesizes name, roleDefinition and groups, and the
synthesized document revalidates cleanly. -/
theorem c1_fix_idempotent_witness :
    ∃ r2, validateRoomodes (JValue.obj [("customModes", JValue.arr
      [JValue.obj [("slug", JValue.str "a"), ("name", JValue.str "A"),
        ("roleDefinition", JValue.str "You are Roo, a mode 1 assistant."),
        ("groups", JValue.arr [JValue.str "read"])]])]) false
      regexAlwaysCompiles = .ok r2 ∧ r2.errors = [] ∧ r2.isValid = true :=
  c1_fix_idempotent regexAlwaysCompiles
    (JValue.obj [("customModes",
      JValue.arr [JValue.obj [("slug", JValue.str "a")]])])
    [JValue.obj [("slug", JValue.str "a")]] ["a"]
    (VResult.mk false true
      [VError.missingName 0, VError.missingRoleDefinition 0,
        VError.missingGroups 0] []
      (some (JValue.obj [("customModes", JValue.arr
        [JValue.obj [("slug", JValue.str "a"), ("name", JValue.str "A"),
          ("roleDefinition", JValue.str "You are Roo, a mode 1 assistant."),
          ("groups", JValue.arr [JValue.str "read"])]])])))
    (JValue.obj [("customModes", JValue.arr
      [JValue.obj [("slug", JValue.str "a"), ("name", JValue.str "A"),
        ("roleDefinition", JValue.str "You are Roo, a mode 1 assistant."),
        ("groups", JValue.arr [JValue.str "read"])]])])
    rfl (by simp)
    (List.Forall₂.cons ⟨rfl, rfl, Or.inl rfl, Or.inl rfl, Or.inl rfl⟩
      List.Forall₂.nil)
    (by simp) rfl rfl

end Claims

end Roomodes
